import Mathlib

/-!
Shallow embedding of the merged-fs mount-resolution-and-dispatch engine
(`src/index.js`) and proofs about its specification claims.

Modelling conventions:
* JS strings are Lean `String`s; `somepath.slice(n)` is `String.drop`,
  `filepath.indexOf(mountPath) === 0` is a character-prefix test.
* A JS value that may be `undefined` is an `Option`.
* Backends are values of an opaque type `β`; the lookup `filesystem[funcName]`
  is a parameter `f : β → Option (String → ...)` (absent method = `none`).
* A synchronous backend invocation either throws (`Except.error`) or returns a
  possibly-`undefined` value (`Except.ok (r : Option ρ)`).
* An asynchronous backend invocation fires its completion exactly once with an
  (error, result) pair, modelled as the pair itself: `Option ε × Option ρ`.
* Thrown JS error objects of backend origin have type `ε` and are assumed
  truthy; framework-made error values are wrapped in `JSErr`.
* `path.join` is an uninterpreted parameter `pj : String → String → String`;
  no claim depends on its internals.
-/

namespace MergedFS

/-- `ensureStartsWithSlash` from `src/index.js` (lines 26-35). -/
def ensureStartsWithSlash (somepath : String) : String :=
  match somepath.data with
  | '.' :: '/' :: _ => somepath.drop 1
  | '/' :: _ => somepath
  | _ => "/" ++ somepath

/-- A JS value that is either a single item or an array of items
(the argument of `ensureArray`, line 37-43). -/
inductive RawVal (α : Type) where
  | single (a : α)
  | list (l : List α)
deriving DecidableEq, Repr

/-- `ensureArray` from `src/index.js` (lines 37-43). -/
def ensureArray : RawVal α → List α
  | .single a => [a]
  | .list l => l

/-- A backend descriptor as supplied by the caller to `addMountPoints`:
a plain string (alias shortcut), a concrete filesystem object, or an object
with an `alias` property and optional `filesystem` property. -/
inductive RawDescriptor (β : Type) where
  | str (s : String)
  | fs (b : β)
  | aliasObj (target : String) (filesystem : Option β)
deriving DecidableEq, Repr

/-- A cleaned-up backend descriptor as stored in `mountedPaths`:
either a concrete filesystem object, or an object carrying an `alias`
property (with optional explicit `filesystem`). -/
inductive Descriptor (β : Type) where
  | backend (b : β)
  | aliased (target : String) (filesystem : Option β)
deriving DecidableEq, Repr

/-- The per-descriptor cleanup in `addMountPoints` (lines 84-99): strings
become alias objects, and any alias target is normalized with
`ensureStartsWithSlash`. -/
def cleanDescriptor : RawDescriptor β → Descriptor β
  | .str s => .aliased (ensureStartsWithSlash s) none
  | .fs b => .backend b
  | .aliasObj t fb => .aliased (ensureStartsWithSlash t) fb

/-- Lookup in a JS object modelled as an association list. -/
def objGet : List (String × α) → String → Option α
  | [], _ => none
  | (k, v) :: rest, key => if k = key then some v else objGet rest key

/-- Property assignment in a JS object modelled as an association list:
overwrite the existing binding or append a new one. -/
def objSet : List (String × α) → String → α → List (String × α)
  | [], key, v => [(key, v)]
  | (k, w) :: rest, key, v =>
      if k = key then (key, v) :: rest else (k, w) :: objSet rest key v

/-- The JS string comparison used by `Array.prototype.sort()` with no
comparator: lexicographic on the character sequences (identical to
code-unit order on the ASCII strings involved here). Stated on `.data` so
that the kernel can evaluate it. -/
def jsStrLe (a b : String) : Prop := a.data ≤ b.data

instance : DecidableRel jsStrLe :=
  fun a b => inferInstanceAs (Decidable (a.data ≤ b.data))

instance : IsTotal String jsStrLe := ⟨fun a b => le_total a.data b.data⟩

instance : IsTrans String jsStrLe := ⟨fun _ _ _ hab hbc => le_trans hab hbc⟩

instance : IsAntisymm String jsStrLe :=
  ⟨fun _ _ h1 h2 => String.ext (le_antisymm h1 h2)⟩

/-- `Object.keys(x).sort().reverse()` (line 117): ascending lexicographic
sort followed by reversal, i.e. descending lexicographic order. -/
def sortDesc (l : List String) : List String :=
  (l.insertionSort jsStrLe).reverse

/-- The value of the `mountedPaths` map: an insertion-ordered sequence of
(mount path, descriptor list) entries. -/
abbrev Table (β : Type) := List (String × List (Descriptor β))

/-- The mapping argument of `addMountPoints`: mount path keys with a
single descriptor or a descriptor list each. -/
abbrev RawMapping (β : Type) := List (String × RawVal (RawDescriptor β))

/-- The input-cleanup loop of `addMountPoints` (lines 79-102), producing the
`mountPointsToAdd` object before old mount points are merged in. -/
def cleanupMountPoints (input : RawMapping β) : Table β :=
  input.foldl
    (fun obj pr =>
      objSet obj (ensureStartsWithSlash pr.1) ((ensureArray pr.2).map cleanDescriptor))
    []

/-- The old-mount-point merge loop of `addMountPoints` (lines 104-113):
for each existing entry, concatenate it after the new descriptors for the
same path, or keep it as is. -/
def mergeOldMountPoints (old : Table β) (toAdd : Table β) : Table β :=
  old.foldl
    (fun obj pr =>
      match objGet obj pr.1 with
      | some existing => objSet obj pr.1 (existing ++ pr.2)
      | none => objSet obj pr.1 pr.2)
    toAdd

/-- `addMountPoints` from `src/index.js` (lines 70-120): clean up the input,
merge in the previously mounted paths, and rebuild the table with keys in
descending lexicographic order. -/
def addMountPoints (old : Table β) (input : RawMapping β) : Table β :=
  let merged := mergeOldMountPoints old (cleanupMountPoints input)
  (sortDesc (merged.map Prod.fst)).map (fun k => (k, (objGet merged k).getD []))

/-- One dispatch candidate pushed by `_gatherStuffToIterateOver`
(lines 154-159): mount path, concrete filesystem, subpath, and the alias
target when one was applied. -/
structure Cand (β : Type) where
  mountPath : String
  filesystem : β
  subpath : String
  usedAlias : Option String
deriving DecidableEq, Repr

/-- The inner loop body of `_gatherStuffToIterateOver` (lines 143-160):
the candidate pushed for one descriptor, applying the alias rewrite
(`path.join(filesystem.alias, subpath)`) and the fallback to the default
root filesystem (`filesystem.filesystem || this.rootFS`). -/
def candOfDescriptor (rootFS : β) (pj : String → String → String)
    (mountPath subpath : String) : Descriptor β → Cand β
  | .backend b => ⟨mountPath, b, subpath, none⟩
  | .aliased t fb => ⟨mountPath, fb.getD rootFS, pj t subpath, some t⟩

/-- The subpath computed for a matching mount path (lines 135-141). -/
def subpathFor (mountPath filepath : String) : String :=
  if mountPath = "/" then filepath else filepath.drop mountPath.length

/-- `filepath.indexOf(mountPath) === 0` (line 134): mountPath is a plain
character prefix of filepath. Stated on `.data` so the kernel can
evaluate it. -/
def jsStartsWith (filepath mountPath : String) : Bool :=
  mountPath.data.isPrefixOf filepath.data

/-- `_gatherStuffToIterateOver` from `src/index.js` (lines 128-165), written
as the source's push-loop (a left fold over table entries). -/
def gatherStuffToIterateOver (rootFS : β) (pj : String → String → String)
    (table : Table β) (filepath : String) : List (Cand β) :=
  table.foldl
    (fun acc pr =>
      if jsStartsWith filepath pr.1 then
        acc ++ pr.2.map (candOfDescriptor rootFS pj pr.1 (subpathFor pr.1 filepath))
      else acc)
    []

/-! ## Merge policy and operation options -/

/-- Helper of `uniqFirst`: drop elements already seen. -/
def uniqFirstAux : List String → List String → List String
  | [], _ => []
  | x :: xs, seen =>
      if x ∈ seen then uniqFirstAux xs seen
      else x :: uniqFirstAux xs (x :: seen)

/-- `uniq` from lodash: keep the first occurrence of each element. -/
def uniqFirst (l : List String) : List String := uniqFirstAux l []

/-- JS `Array.prototype.sort()` with no comparator on an array of strings:
ascending lexicographic order. -/
def jsSort (l : List String) : List String :=
  l.insertionSort jsStrLe

/-- `flatten` followed by `compact` on the readdir results accumulator
(line 20): flattening turns an `undefined` entry into a single `undefined`
element and `compact` then removes it together with any falsy (empty)
string. -/
def flattenCompact (results : List (Option (List String))) : List String :=
  (results.flatMap (fun r => r.getD [])).filter (fun s => s ≠ "")

/-- `SUPPORTED_FS_FUNCTIONS.get('readdir').mergeResults` from `src/index.js`
(lines 16-23). The first component is the merged error, the second the
merged result, as passed to the callback / thrown by the sync form. -/
def mergeReaddirResults (errors : List (Option ε))
    (results : List (Option (List String))) : Option ε × Option (List String) :=
  if 0 < errors.length ∧ (results.filterMap id).length = 0 then
    (errors.headD none, none)
  else
    (none, some (jsSort (uniqFirst (flattenCompact results))))

/-- A `SUPPORTED_FS_FUNCTIONS` options value (lines 9-24). -/
structure FuncOptions (ε ρ : Type) where
  returnFirstValue : Bool
  mergeResults : Option (List (Option ε) → List (Option ρ) → Option ε × Option ρ)

/-- Options of `stat`, `readFile` and `readlink` (lines 10-12). -/
def firstValueOptions : FuncOptions ε ρ := ⟨true, none⟩

/-- Options of `readdir` (lines 13-24). -/
def readdirOptions : FuncOptions ε (List String) := ⟨false, some mergeReaddirResults⟩

/-! ## Synchronous dispatcher -/

/-- A value thrown by the synchronous dispatcher. -/
inductive Thrown (ε : Type) where
  /-- `new Error('No mount points match: ...')` (line 175). -/
  | noMountMatch
  /-- `throw errors[0]` when `errors[0]` is the JS value `undefined`
  (line 310 with an empty or error-free accumulator head). -/
  | jsUndefined
  /-- An underlying error value thrown on to the caller. -/
  | err (e : ε)
deriving DecidableEq, Repr

/-- The mutable state of one `_callSyncFunc` run: the `errors` and `results`
accumulators (lines 277-278), plus a ghost `invoked` trace listing the
candidates whose backend operation was actually invoked (in order). -/
structure SyncAcc (β ε ρ : Type) where
  errors : List (Option ε)
  results : List (Option ρ)
  invoked : List (Cand β)
deriving DecidableEq, Repr

/-- The candidate loop of `_iterateOverFilesystemsSync` (lines 178-185) with
the `_callSyncFunc` iteration callback (lines 280-297) inlined: returns the
first defined callback result (`finalResult`) together with the final
accumulator state. -/
def syncIter (f : β → Option (String → Except ε (Option ρ)))
    (returnFirstValue : Bool) :
    List (Cand β) → SyncAcc β ε ρ → Option ρ × SyncAcc β ε ρ
  | [], acc => (none, acc)
  | c :: rest, acc =>
    match f c.filesystem with
    | none => syncIter f returnFirstValue rest acc
    | some op =>
      let acc1 : SyncAcc β ε ρ := { acc with invoked := acc.invoked ++ [c] }
      match op c.subpath with
      | .error e =>
          syncIter f returnFirstValue rest
            { acc1 with errors := acc1.errors ++ [some e],
                        results := acc1.results ++ [none] }
      | .ok r =>
          let acc2 : SyncAcc β ε ρ :=
            { acc1 with errors := acc1.errors ++ [none],
                        results := acc1.results ++ [r] }
          if returnFirstValue && r.isSome then (r, acc2)
          else syncIter f returnFirstValue rest acc2

/-- Lines 299-306: throw the merged error when the merged result is
`undefined` and the merged error is truthy, otherwise return the merged
result. -/
def syncMergedOutcome : Option ε × Option ρ → Except (Thrown ε) (Option ρ)
  | (some e, none) => .error (.err e)
  | (_, mres) => .ok mres

/-- `_callSyncFunc` from `src/index.js` (lines 276-314), with
`_iterateOverFilesystemsSync` (lines 167-186) inlined. Returns the call
outcome together with the final accumulator state (for inspection). -/
def callSyncFunc (f : β → Option (String → Except ε (Option ρ)))
    (opts : FuncOptions ε ρ) (rootFS : β) (pj : String → String → String)
    (table : Table β) (filepath : String) :
    Except (Thrown ε) (Option ρ) × SyncAcc β ε ρ :=
  let fp := ensureStartsWithSlash filepath
  let cands := gatherStuffToIterateOver rootFS pj table fp
  if cands.isEmpty then (.error .noMountMatch, ⟨[], [], []⟩)
  else
    let (finalResult, acc) := syncIter f opts.returnFirstValue cands ⟨[], [], []⟩
    match opts.mergeResults with
    | some mr => (syncMergedOutcome (mr acc.errors acc.results), acc)
    | none =>
        match finalResult with
        | some v => (.ok (some v), acc)
        | none =>
            match acc.errors.headD none with
            | some e => (.error (.err e), acc)
            | none => (.error .jsUndefined, acc)

/-! ## Asynchronous dispatcher -/

/-- An error value observable through the asynchronous machinery: an
underlying backend error, the framework error
`new Error('filessytem has no such function: ...')` (line 236), or
`new Error('No mount points match: ...')` (line 223). -/
inductive JSErr (ε : Type) where
  | base (e : ε)
  | noFunc
  | noMount
deriving DecidableEq, Repr

/-- The first argument of `doneCallback` in `_iterateOverFilesystemsAsync`:
either the `collectedErrors` array (line 205) or the single no-mount-match
error object (line 223). -/
inductive OutsideErr (ε : Type) where
  | arr (l : List (Option (JSErr ε)))
  | single (e : JSErr ε)
deriving DecidableEq, Repr

/-- The mutable state of one `_callAsyncFunc` run: the outer `errors` and
`results` accumulators (lines 228-229), the `collectedErrors` and
`collectedResults` of `_iterateOverFilesystemsAsync` (lines 192-193), the
`stoppedEarly` flag (line 232), the sequence of invocations of the caller
callback (`calls`, each entry an (error, result) argument pair, in order),
and a ghost `invoked` trace of candidates whose backend operation was
invoked. -/
structure AsyncAcc (β ε ρ : Type) where
  errors : List (Option ε)
  results : List (Option ρ)
  collectedErrors : List (Option (JSErr ε))
  collectedResults : List (Option ρ)
  stoppedEarly : Bool
  calls : List (Option (JSErr ε) × Option ρ)
  invoked : List (Cand β)
deriving DecidableEq, Repr

/-- The initial `_callAsyncFunc` state. -/
def asyncInit : AsyncAcc β ε ρ := ⟨[], [], [], [], false, [], []⟩

/-- `doneIteration` from `_callAsyncFunc` (lines 257-271). -/
def doneIteration (opts : FuncOptions ε ρ) (outsideError : Option (OutsideErr ε))
    (acc : AsyncAcc β ε ρ) : AsyncAcc β ε ρ :=
  match opts.mergeResults with
  | some mr =>
      let merged := mr acc.errors acc.results
      { acc with calls := acc.calls ++ [(merged.1.map .base, merged.2)] }
  | none =>
      if acc.stoppedEarly then acc
      else
        let errorToReturn : Option (JSErr ε) :=
          match outsideError with
          | some (.single e) => some e
          | some (.arr l) => l.headD none
          | none => (acc.errors.headD none).map .base
        { acc with calls := acc.calls ++ [(errorToReturn, none)] }

/-- What one candidate step does before `next` is observed: either the
backend completion never fires a continuation (`stall`, when the completion
pair is (undefined, undefined) so neither branch of lines 243-254 runs), or
`next` is called with the given iteration error, iteration result and
stop flag. -/
inductive StepEffect (ε ρ : Type) where
  | stall
  | nextCall (iterError : Option (JSErr ε)) (iterResult : Option ρ) (stop : Bool)

/-- The iteration callback of `_callAsyncFunc` (lines 234-256) for one
candidate: updates the accumulators and reports how `next` is invoked. -/
def asyncStep (f : β → Option (String → Option ε × Option ρ))
    (opts : FuncOptions ε ρ) (c : Cand β) (acc : AsyncAcc β ε ρ) :
    AsyncAcc β ε ρ × StepEffect ε ρ :=
  match f c.filesystem with
  | none => (acc, .nextCall (some .noFunc) none false)
  | some op =>
      let completion := op c.subpath
      let acc1 : AsyncAcc β ε ρ :=
        { acc with errors := acc.errors ++ [completion.1],
                   results := acc.results ++ [completion.2],
                   invoked := acc.invoked ++ [c] }
      match completion with
      | (some e, _) => (acc1, .nextCall (some (.base e)) none false)
      | (none, some r) =>
          if opts.returnFirstValue then
            ({ acc1 with calls := acc1.calls ++ [(none, some r)],
                         stoppedEarly := true },
             .nextCall none (some r) true)
          else
            (acc1, .nextCall none (some r) false)
      | (none, none) => (acc1, .stall)

/-- The `iterate` / `next` loop of `_iterateOverFilesystemsAsync`
(lines 196-217) driving the `_callAsyncFunc` callbacks over the remaining
candidates. On a stall the run simply stops with the state reached so far
(nothing further ever happens in the source either). -/
def asyncIter (f : β → Option (String → Option ε × Option ρ))
    (opts : FuncOptions ε ρ) :
    List (Cand β) → AsyncAcc β ε ρ → AsyncAcc β ε ρ
  | [], acc => acc
  | c :: rest, acc =>
      match asyncStep f opts c acc with
      | (acc1, .stall) => acc1
      | (acc1, .nextCall iterError iterResult stop) =>
          let acc2 : AsyncAcc β ε ρ :=
            { acc1 with
                collectedErrors := acc1.collectedErrors ++ [iterError],
                collectedResults := acc1.collectedResults ++ [iterResult] }
          if stop || rest.isEmpty then
            doneIteration opts
              (if acc2.collectedErrors.isEmpty then none
               else some (.arr acc2.collectedErrors)) acc2
          else
            asyncIter f opts rest acc2

/-- `_callAsyncFunc` from `src/index.js` (lines 227-274), with
`_iterateOverFilesystemsAsync` (lines 188-225) inlined. The returned state's
`calls` field lists every invocation of the caller's callback, in order. -/
def callAsyncFunc (f : β → Option (String → Option ε × Option ρ))
    (opts : FuncOptions ε ρ) (rootFS : β) (pj : String → String → String)
    (table : Table β) (filepath : String) : AsyncAcc β ε ρ :=
  let fp := ensureStartsWithSlash filepath
  let cands := gatherStuffToIterateOver rootFS pj table fp
  if cands.isEmpty then doneIteration opts (some (.single .noMount)) asyncInit
  else asyncIter f opts cands asyncInit

/-! ## Reference-level registry model

`clone` (lines 58-68) is about object identity: the clone gets a fresh
top-level map and fresh per-path arrays while sharing the backend objects.
To state that faithfully we model JS arrays as references into an
append-only store (the source never mutates a descriptor array in place:
`concat` and `slice` allocate). -/

/-- A reference to a descriptor array in the store. -/
abbrev Ref := Nat

/-- The array store: cell `r` holds the descriptor array referenced by `r`. -/
abbrev Store (β : Type) := List (List (Descriptor β))

/-- A `mountedPaths` map holding array references rather than array values. -/
abbrev RefTable := List (String × Ref)

/-- Allocate a fresh array. -/
def alloc (st : Store β) (v : List (Descriptor β)) : Store β × Ref :=
  (st ++ [v], st.length)

/-- Read an array reference. -/
def deref (st : Store β) (r : Ref) : List (Descriptor β) :=
  st.getD r []

/-- The value of a reference-level table. -/
def derefTable (st : Store β) (t : RefTable) : Table β :=
  t.map (fun pr => (pr.1, deref st pr.2))

/-- `clone` from `src/index.js` (lines 58-68): copy the top-level map and
re-set every entry to a fresh copy (`slice()`) of its array. -/
def cloneRegistry (st : Store β) (t : RefTable) : Store β × RefTable :=
  t.foldl
    (fun acc pr =>
      let fresh := alloc acc.1 (deref acc.1 pr.2)
      (fresh.1, acc.2 ++ [(pr.1, fresh.2)]))
    (st, [])

/-- One step of the reference-level cleanup loop (lines 79-102): the
`.map` on line 84 allocates one fresh descriptor array per input key. -/
def cleanupStepRef (acc : Store β × RefTable)
    (pr : String × RawVal (RawDescriptor β)) : Store β × RefTable :=
  let fresh := alloc acc.1 ((ensureArray pr.2).map cleanDescriptor)
  (fresh.1, objSet acc.2 (ensureStartsWithSlash pr.1) fresh.2)

/-- One step of the reference-level old-mount merge loop (lines 104-113):
`concat` (line 108) allocates a fresh array for an already-present path,
while line 110 reuses the existing array reference. -/
def mergeStepRef (acc : Store β × RefTable) (pr : String × Ref) :
    Store β × RefTable :=
  match objGet acc.2 pr.1 with
  | some rNew =>
      let fresh := alloc acc.1 (deref acc.1 rNew ++ deref acc.1 pr.2)
      (fresh.1, objSet acc.2 pr.1 fresh.2)
  | none => (acc.1, objSet acc.2 pr.1 pr.2)

/-- `addMountPoints` (lines 70-120) at the reference level. -/
def addMountPointsRef (st : Store β) (t : RefTable) (input : RawMapping β) :
    Store β × RefTable :=
  let cleaned := input.foldl cleanupStepRef (st, ([] : RefTable))
  let merged := t.foldl mergeStepRef cleaned
  (merged.1,
   (sortDesc (merged.2.map Prod.fst)).map
     (fun k => (k, (objGet merged.2 k).getD 0)))

/-! ## Definitions modelled from the specification text -/

/-- Modelled from the spec: the Candidate Resolver of spec section 4.3.
For every (MountPath, descriptors) entry in table order where the path
starts with MountPath, compute the subpath (whole path if MountPath is `/`,
else the path with the MountPath sliced off) and append one candidate per
descriptor in list order, rewriting alias descriptors through join and the
default root backend. -/
def gatherSpec (rootFS : β) (pj : String → String → String)
    (table : Table β) (filepath : String) : List (Cand β) :=
  table.flatMap
    (fun pr =>
      if jsStartsWith filepath pr.1 then
        pr.2.map (candOfDescriptor rootFS pj pr.1 (subpathFor pr.1 filepath))
      else [])

/-! ## Backend behavior predicates used in claim statements -/

/-- The (error, result) pair describing what one synchronous invocation of
the operation `f` on candidate `c` records: `(none, none)` when the backend
lacks the operation, `(some e, none)` when it throws `e`, `(none, r)` when
it returns `r`. -/
def syncOutcome (f : β → Option (String → Except ε (Option ρ))) (c : Cand β) :
    Option ε × Option ρ :=
  match f c.filesystem with
  | none => (none, none)
  | some op =>
      match op c.subpath with
      | .error e => (some e, none)
      | .ok r => (none, r)

/-- The (error, result) pair an asynchronous invocation of the operation
`f` on candidate `c` passes to its completion (`(none, none)` when the
backend lacks the operation). -/
def asyncOutcome (f : β → Option (String → Option ε × Option ρ)) (c : Cand β) :
    Option ε × Option ρ :=
  match f c.filesystem with
  | none => (none, none)
  | some g => g c.subpath

/-- Candidate `c` does not produce a defined result for the blocking form:
its backend lacks the operation, throws, or returns `undefined`. -/
def syncNoDefined (f : β → Option (String → Except ε (Option ρ)))
    (c : Cand β) : Prop :=
  ∀ op, f c.filesystem = some op →
    (∃ e, op c.subpath = .error e) ∨ op c.subpath = .ok none

/-- Candidate `c` falls through in the non-blocking form without stalling
the chain: its backend lacks the operation or completes with an error. -/
def asyncFallsThrough (f : β → Option (String → Option ε × Option ρ))
    (c : Cand β) : Prop :=
  ∀ g, f c.filesystem = some g → ((g c.subpath).1).isSome = true

/-- Candidate `c` implements the operation and its invocation throws
(blocking form). -/
def syncFails (f : β → Option (String → Except ε (Option ρ)))
    (c : Cand β) : Prop :=
  ∃ op e, f c.filesystem = some op ∧ op c.subpath = .error e

/-- Candidate `c` implements the operation and its completion reports an
error and no result (non-blocking form). -/
def asyncFails (f : β → Option (String → Option ε × Option ρ))
    (c : Cand β) : Prop :=
  ∃ g e, f c.filesystem = some g ∧ g c.subpath = (some e, none)

/-- Candidate `c` implements the operation and its completion carries an
error or a defined result (so the chain does not stall there). -/
def asyncImplNoStall (f : β → Option (String → Option ε × Option ρ))
    (c : Cand β) : Prop :=
  ∃ g, f c.filesystem = some g ∧
    (((g c.subpath).1).isSome = true ∨ ((g c.subpath).2).isSome = true)

/-- The completion observed for candidate `c` fires with an error or a
defined result (the contract assumed by the exactly-once claim). -/
def firesWithErrorOrResult (f : β → Option (String → Option ε × Option ρ))
    (c : Cand β) : Prop :=
  ((asyncOutcome f c).1).isSome = true ∨ ((asyncOutcome f c).2).isSome = true

/-- Candidate `c` implements the blocking operation and its invocation
conforms to the backend contract: it throws or returns a defined value. -/
def syncImplConforms (f : β → Option (String → Except ε (Option ρ)))
    (c : Cand β) : Prop :=
  ∃ op, f c.filesystem = some op ∧
    ((∃ e, op c.subpath = .error e) ∨ ∃ r, op c.subpath = .ok (some r))

/-- Candidate `c` implements the non-blocking operation and its completion
conforms to the backend contract: an error and no result, or a defined
result and no error. -/
def asyncImplConforms (f : β → Option (String → Option ε × Option ρ))
    (c : Cand β) : Prop :=
  ∃ g, f c.filesystem = some g ∧
    ((∃ e, g c.subpath = (some e, none)) ∨ ∃ r, g c.subpath = (none, some r))

/-- The flattening of all defined listings of a readdir sweep (the merge
input before duplicate removal and sorting). -/
def flattenDefined (results : List (Option (List String))) : List String :=
  results.flatMap (fun r => r.getD [])

/-- The caller-callback argument pair that corresponds to a blocking
outcome: identical behavior of the two forms means the non-blocking form
makes exactly this one call. A thrown `undefined` has no error value to
deliver, so it corresponds to a completion with neither error nor result. -/
def syncToCall : Except (Thrown ε) (Option ρ) → Option (JSErr ε) × Option ρ
  | .ok r => (none, r)
  | .error .noMountMatch => (some .noMount, none)
  | .error .jsUndefined => (none, none)
  | .error (.err e) => (some (.base e), none)

/-- The blocking and non-blocking operation tables agree on candidate `c`:
both implement the operation, and on the candidate's subpath the
invocation either throws `e` while the completion reports `(e, undefined)`,
or returns a defined `v` while the completion reports `(undefined, v)`. -/
def agreeOn (fs : β → Option (String → Except ε (Option ρ)))
    (fa : β → Option (String → Option ε × Option ρ)) (c : Cand β) : Prop :=
  ∃ op g, fs c.filesystem = some op ∧ fa c.filesystem = some g ∧
    ((∃ e, op c.subpath = .error e ∧ g c.subpath = (some e, none)) ∨
     (∃ v, op c.subpath = .ok (some v) ∧ g c.subpath = (none, some v)))

/-! ## Concrete instances used by witnesses and counterexamples

Backends are numbered by `Nat`; errors and results are `Nat` for the
single-value operations. -/

/-- A concrete stand-in for `path.join` (its internals are irrelevant). -/
def pjConcat : String → String → String := fun a b => a ++ b

/-- A one-backend operation table: backend 0 returns the value 7. -/
def syncOkBackend : Nat → Option (String → Except Nat (Option Nat)) :=
  fun b => if b = 0 then some (fun _ => .ok (some 7)) else none

/-- Non-blocking form of `syncOkBackend`. -/
def asyncOkBackend : Nat → Option (String → Option Nat × Option Nat) :=
  fun b => if b = 0 then some (fun _ => (none, some 7)) else none

/-- No backend implements the operation (blocking lookups). -/
def noImplSync : Nat → Option (String → Except Nat (Option Nat)) :=
  fun _ => none

/-- No backend implements the operation (non-blocking lookups). -/
def noImplAsync : Nat → Option (String → Option Nat × Option Nat) :=
  fun _ => none

/-- Every backend throws `100 + b` (blocking form). -/
def syncFailBackend : Nat → Option (String → Except Nat (Option Nat)) :=
  fun b => some (fun _ => .error (100 + b))

/-- Every backend reports error `100 + b` (non-blocking form). -/
def asyncFailBackend : Nat → Option (String → Option Nat × Option Nat) :=
  fun b => some (fun _ => (some (100 + b), none))

/-- Blocking readdir backends: backend 0 lists FOOBAR and Y, backend 1
lists Allo and FOOBAR (the spec scenario). -/
def readdirSyncBackends : Nat → Option (String → Except Nat (Option (List String))) :=
  fun b =>
    if b = 0 then some (fun _ => .ok (some ["FOOBAR", "Y"]))
    else if b = 1 then some (fun _ => .ok (some ["Allo", "FOOBAR"]))
    else none

/-- Non-blocking form of `readdirSyncBackends`. -/
def readdirAsyncBackends : Nat → Option (String → Option Nat × Option (List String)) :=
  fun b =>
    if b = 0 then some (fun _ => (none, some ["FOOBAR", "Y"]))
    else if b = 1 then some (fun _ => (none, some ["Allo", "FOOBAR"]))
    else none

/-- No backend implements readdir (blocking lookups). -/
def noImplReaddirSync : Nat → Option (String → Except Nat (Option (List String))) :=
  fun _ => none

/-- No backend implements readdir (non-blocking lookups). -/
def noImplReaddirAsync : Nat → Option (String → Option Nat × Option (List String)) :=
  fun _ => none

/-- A single root mount backed by backend 0. -/
def rootTable : Table Nat := [("/", [.backend 0])]

/-- The spec scenario registry: two backends mounted at /custom. -/
def customTable : Table Nat := [("/custom", [.backend 0, .backend 1])]

/-- Two mounts that both match paths under /a. -/
def twoMountTable : Table Nat := [("/a", [.backend 5]), ("/", [.backend 7])]

/-- A one-cell array store for the clone witness. -/
def storeW : Store Nat := [[.backend 5]]

/-- A reference-level table pointing the root mount at cell 0. -/
def refTableW : RefTable := [("/", 0)]

/-- A merge input used against the clone witness. -/
def cloneInputW : RawMapping Nat := [("/a", .single (.fs 7))]

/-- An existing table with one backend at /b (registry-merge witness). -/
def twoBWitnessOld : Table Nat := [("/b", [.backend 1])]

/-- A merge input adding another backend at /b and a new mount /a. -/
def twoBWitnessInput : RawMapping Nat :=
  [("/b", .list [.fs 2]), ("/a", .single (.fs 3))]

/-! ## Lemmas -/

theorem gather_foldl_eq (rootFS : β) (pj : String → String → String)
    (filepath : String) (table : Table β) (acc : List (Cand β)) :
    table.foldl
      (fun acc pr =>
        if jsStartsWith filepath pr.1 then
          acc ++ pr.2.map (candOfDescriptor rootFS pj pr.1 (subpathFor pr.1 filepath))
        else acc)
      acc
    = acc ++ gatherSpec rootFS pj table filepath := by
  induction table generalizing acc with
  | nil => simp [gatherSpec]
  | cons pr rest ih =>
      simp only [List.foldl_cons, gatherSpec, List.flatMap_cons] at *
      by_cases h : jsStartsWith filepath pr.1
      · simp [h, ih, List.append_assoc]
      · simp [h, ih]

theorem syncIter_success (f : β → Option (String → Except ε (Option ρ)))
    (c : Cand β) (v : ρ) (op : String → Except ε (Option ρ))
    (hop : f c.filesystem = some op) (hv : op c.subpath = .ok (some v)) :
    ∀ (pre : List (Cand β)) (rest : List (Cand β)) (acc : SyncAcc β ε ρ),
      (∀ c' ∈ pre, syncNoDefined f c') →
      ∃ E R, syncIter f true (pre ++ c :: rest) acc
        = (some v,
           ⟨E, R, acc.invoked
                    ++ pre.filter (fun x => (f x.filesystem).isSome) ++ [c]⟩) := by
  intro pre
  induction pre with
  | nil =>
      intro rest acc _
      refine ⟨acc.errors ++ [none], acc.results ++ [some v], ?_⟩
      simp [syncIter, hop, hv]
  | cons p pre ih =>
      intro rest acc hno
      have hp := hno p (by simp)
      have hpre : ∀ c' ∈ pre, syncNoDefined f c' :=
        fun c' hc' => hno c' (by simp [hc'])
      match hfp : f p.filesystem with
      | none =>
          obtain ⟨E, R, hiter⟩ := ih rest acc hpre
          refine ⟨E, R, ?_⟩
          simpa [syncIter, hfp, List.filter_cons, hfp] using hiter
      | some opp =>
          rcases hp opp hfp with ⟨e, he⟩ | hnone
          · obtain ⟨E, R, hiter⟩ :=
              ih rest ⟨acc.errors ++ [some e], acc.results ++ [none],
                       acc.invoked ++ [p]⟩ hpre
            refine ⟨E, R, ?_⟩
            simp only [List.cons_append, syncIter, hfp, he]
            simpa [List.filter_cons, hfp, List.append_assoc] using hiter
          · obtain ⟨E, R, hiter⟩ :=
              ih rest ⟨acc.errors ++ [none], acc.results ++ [none],
                       acc.invoked ++ [p]⟩ hpre
            refine ⟨E, R, ?_⟩
            simp only [List.cons_append, syncIter, hfp, hnone]
            simpa [List.filter_cons, hfp, List.append_assoc] using hiter

theorem syncIter_allFail (f : β → Option (String → Except ε (Option ρ)))
    (rfv : Bool) :
    ∀ (l : List (Cand β)) (acc : SyncAcc β ε ρ),
      (∀ c ∈ l, syncFails f c) →
      syncIter f rfv l acc
        = (none, ⟨acc.errors ++ l.map (fun c => (syncOutcome f c).1),
                  acc.results ++ l.map (fun _ => (none : Option ρ)),
                  acc.invoked ++ l⟩) := by
  intro l
  induction l with
  | nil => intro acc _; simp [syncIter]
  | cons c l ih =>
      intro acc hfail
      obtain ⟨op, e, hop, he⟩ := hfail c (by simp)
      have hl : ∀ c' ∈ l, syncFails f c' := fun c' hc' => hfail c' (by simp [hc'])
      have houtc : (syncOutcome f c).1 = some e := by
        simp [syncOutcome, hop, he]
      simp only [syncIter, hop, he]
      rw [ih _ hl]
      simp [houtc, List.append_assoc]

theorem syncIter_noFirstValue (f : β → Option (String → Except ε (Option ρ))) :
    ∀ (l : List (Cand β)) (acc : SyncAcc β ε ρ),
      (∀ c ∈ l, (f c.filesystem).isSome = true) →
      syncIter f false l acc
        = (none, ⟨acc.errors ++ l.map (fun c => (syncOutcome f c).1),
                  acc.results ++ l.map (fun c => (syncOutcome f c).2),
                  acc.invoked ++ l⟩) := by
  intro l
  induction l with
  | nil => intro acc _; simp [syncIter]
  | cons c l ih =>
      intro acc himpl
      have hl : ∀ c' ∈ l, (f c'.filesystem).isSome = true :=
        fun c' hc' => himpl c' (by simp [hc'])
      obtain ⟨op, hop⟩ := Option.isSome_iff_exists.mp (himpl c (by simp))
      match hout : op c.subpath with
      | .error e =>
          have h1 : (syncOutcome f c).1 = some e := by simp [syncOutcome, hop, hout]
          have h2 : (syncOutcome f c).2 = none := by simp [syncOutcome, hop, hout]
          simp only [syncIter, hop, hout]
          rw [ih _ hl]
          simp [h1, h2, List.append_assoc]
      | .ok r =>
          have h1 : (syncOutcome f c).1 = none := by simp [syncOutcome, hop, hout]
          have h2 : (syncOutcome f c).2 = r := by simp [syncOutcome, hop, hout]
          simp only [syncIter, hop, hout, Bool.false_and, if_neg]
          rw [ih _ hl]
          simp [h1, h2, List.append_assoc]

theorem asyncIter_success (f : β → Option (String → Option ε × Option ρ))
    (c : Cand β) (v : ρ) (g : String → Option ε × Option ρ)
    (hg : f c.filesystem = some g) (hv : g c.subpath = (none, some v)) :
    ∀ (pre : List (Cand β)) (rest : List (Cand β)) (acc : AsyncAcc β ε ρ),
      (∀ c' ∈ pre, asyncFallsThrough f c') →
      ∃ E R CE CR, asyncIter f ⟨true, none⟩ (pre ++ c :: rest) acc
        = ⟨E, R, CE, CR, true, acc.calls ++ [(none, some v)],
           acc.invoked
             ++ pre.filter (fun x => (f x.filesystem).isSome) ++ [c]⟩ := by
  intro pre
  induction pre with
  | nil =>
      intro rest acc _
      refine ⟨acc.errors ++ [none], acc.results ++ [some v],
              acc.collectedErrors ++ [none], acc.collectedResults ++ [some v], ?_⟩
      simp [asyncIter, asyncStep, hg, hv, doneIteration]
  | cons p pre ih =>
      intro rest acc hpre
      have hp := hpre p (by simp)
      have hpre' : ∀ c' ∈ pre, asyncFallsThrough f c' :=
        fun c' hc' => hpre c' (by simp [hc'])
      match hfp : f p.filesystem with
      | none =>
          obtain ⟨E, R, CE, CR, hiter⟩ := ih rest
            { acc with collectedErrors := acc.collectedErrors ++ [some .noFunc],
                       collectedResults := acc.collectedResults ++ [none] } hpre'
          refine ⟨E, R, CE, CR, ?_⟩
          simp only [List.cons_append, asyncIter, asyncStep, hfp]
          simpa [List.filter_cons, hfp] using hiter
      | some gp =>
          have h1 := hp gp hfp
          match hcomp : gp p.subpath with
          | (some e, rr) =>
              obtain ⟨E, R, CE, CR, hiter⟩ := ih rest
                { acc with errors := acc.errors ++ [some e],
                           results := acc.results ++ [rr],
                           invoked := acc.invoked ++ [p],
                           collectedErrors := acc.collectedErrors ++ [some (.base e)],
                           collectedResults := acc.collectedResults ++ [none] } hpre'
              refine ⟨E, R, CE, CR, ?_⟩
              simp only [List.cons_append, asyncIter, asyncStep, hfp, hcomp]
              simpa [List.filter_cons, hfp, List.append_assoc] using hiter
          | (none, rr) =>
              rw [hcomp] at h1
              simp at h1

theorem asyncIter_allFail (f : β → Option (String → Option ε × Option ρ)) :
    ∀ (l : List (Cand β)) (acc : AsyncAcc β ε ρ), l ≠ [] →
      (∀ c ∈ l, asyncFails f c) → acc.stoppedEarly = false →
      asyncIter f ⟨true, none⟩ l acc
        = ⟨acc.errors ++ l.map (fun c => (asyncOutcome f c).1),
           acc.results ++ l.map (fun _ => none),
           acc.collectedErrors
             ++ l.map (fun c => Option.map JSErr.base (asyncOutcome f c).1),
           acc.collectedResults ++ l.map (fun _ => none),
           false,
           acc.calls
             ++ [((acc.collectedErrors
                    ++ l.map (fun c =>
                         Option.map JSErr.base (asyncOutcome f c).1)).headD none,
                  none)],
           acc.invoked ++ l⟩ := by
  intro l
  induction l with
  | nil => intro acc h; exact absurd rfl h
  | cons c l ih =>
      intro acc _ hfail hstop
      obtain ⟨g, e, hg, hge⟩ := hfail c (by simp)
      have houtc : asyncOutcome f c = (some e, none) := by
        simp [asyncOutcome, hg, hge]
      by_cases hl0 : l = []
      · subst hl0
        simp [asyncIter, asyncStep, hg, hge, doneIteration, hstop, houtc]
      · have hl : ∀ x ∈ l, asyncFails f x :=
          fun x hx => hfail x (by simp [hx])
        have hrec := ih { acc with
            errors := acc.errors ++ [some e],
            results := acc.results ++ [none],
            invoked := acc.invoked ++ [c],
            collectedErrors := acc.collectedErrors ++ [some (.base e)],
            collectedResults := acc.collectedResults ++ [none] }
          hl0 hl (by simpa using hstop)
        have hne : l.isEmpty = false := by simpa [List.isEmpty_iff] using hl0
        simp only [asyncIter, asyncStep, hg, hge, hne, Bool.or_false]
        simpa [houtc, List.append_assoc] using hrec

theorem asyncIter_merge (f : β → Option (String → Option ε × Option ρ))
    (mr : List (Option ε) → List (Option ρ) → Option ε × Option ρ) :
    ∀ (l : List (Cand β)) (acc : AsyncAcc β ε ρ), l ≠ [] →
      (∀ c ∈ l, asyncImplNoStall f c) →
      ∃ CE CR,
      asyncIter f ⟨false, some mr⟩ l acc
        = ⟨acc.errors ++ l.map (fun c => (asyncOutcome f c).1),
           acc.results ++ l.map (fun c => (asyncOutcome f c).2),
           CE, CR, acc.stoppedEarly,
           acc.calls
             ++ [(Option.map JSErr.base
                    (mr (acc.errors ++ l.map (fun c => (asyncOutcome f c).1))
                        (acc.results ++ l.map (fun c => (asyncOutcome f c).2))).1,
                  (mr (acc.errors ++ l.map (fun c => (asyncOutcome f c).1))
                      (acc.results ++ l.map (fun c => (asyncOutcome f c).2))).2)],
           acc.invoked ++ l⟩ := by
  intro l
  induction l with
  | nil => intro acc h; exact absurd rfl h
  | cons c l ih =>
      intro acc _ himpl
      obtain ⟨g, hg, hcases⟩ := himpl c (by simp)
      have hl : ∀ x ∈ l, asyncImplNoStall f x :=
        fun x hx => himpl x (by simp [hx])
      match hcomp : g c.subpath with
      | (some e, rr) =>
          have houtc : asyncOutcome f c = (some e, rr) := by
            simp [asyncOutcome, hg, hcomp]
          by_cases hl0 : l = []
          · subst hl0
            refine ⟨acc.collectedErrors ++ [some (.base e)],
                    acc.collectedResults ++ [none], ?_⟩
            simp [asyncIter, asyncStep, hg, hcomp, doneIteration, houtc]
          · obtain ⟨CE, CR, hrec⟩ := ih { acc with
                errors := acc.errors ++ [some e],
                results := acc.results ++ [rr],
                invoked := acc.invoked ++ [c],
                collectedErrors := acc.collectedErrors ++ [some (.base e)],
                collectedResults := acc.collectedResults ++ [none] }
              hl0 hl
            refine ⟨CE, CR, ?_⟩
            have hne : l.isEmpty = false := by simpa [List.isEmpty_iff] using hl0
            simp only [asyncIter, asyncStep, hg, hcomp, hne, Bool.or_false]
            simpa [houtc, List.append_assoc] using hrec
      | (none, some v) =>
          have houtc : asyncOutcome f c = (none, some v) := by
            simp [asyncOutcome, hg, hcomp]
          by_cases hl0 : l = []
          · subst hl0
            refine ⟨acc.collectedErrors ++ [none],
                    acc.collectedResults ++ [some v], ?_⟩
            simp [asyncIter, asyncStep, hg, hcomp, doneIteration, houtc]
          · obtain ⟨CE, CR, hrec⟩ := ih { acc with
                errors := acc.errors ++ [none],
                results := acc.results ++ [some v],
                invoked := acc.invoked ++ [c],
                collectedErrors := acc.collectedErrors ++ [none],
                collectedResults := acc.collectedResults ++ [some v] }
              hl0 hl
            refine ⟨CE, CR, ?_⟩
            have hne : l.isEmpty = false := by simpa [List.isEmpty_iff] using hl0
            simp only [asyncIter, asyncStep, hg, hcomp, hne, Bool.or_false]
            simpa [houtc, List.append_assoc] using hrec
      | (none, none) =>
          rw [hcomp] at hcases
          simp at hcases

theorem flattenCompact_eq_flattenDefined (results : List (Option (List String)))
    (h : ∀ r ∈ results, ∀ lst, r = some lst → "" ∉ lst) :
    flattenCompact results = flattenDefined results := by
  unfold flattenCompact flattenDefined
  apply List.filter_eq_self.mpr
  intro s hs
  obtain ⟨r, hr, hsr⟩ := List.mem_flatMap.mp hs
  match r with
  | none => simp at hsr
  | some lst =>
      have hnotin := h (some lst) hr lst rfl
      simp only [Option.getD_some] at hsr
      have hne : s ≠ "" := fun he => hnotin (he ▸ hsr)
      simpa using hne

theorem mergeReaddir_defined (errors : List (Option ε))
    (results : List (Option (List String)))
    (h : results.filterMap id ≠ []) :
    mergeReaddirResults errors results
      = (none, some (jsSort (uniqFirst (flattenCompact results)))) := by
  unfold mergeReaddirResults
  rw [if_neg]
  intro hcond
  exact h (List.length_eq_zero.mp hcond.2)

theorem mergeReaddir_allErrors (errors : List (Option ε))
    (results : List (Option (List String)))
    (h1 : errors ≠ []) (h2 : results.filterMap id = []) :
    mergeReaddirResults errors results = (errors.headD none, none) := by
  unfold mergeReaddirResults
  rw [if_pos]
  exact ⟨List.length_pos.mpr h1, by simp [h2]⟩

theorem asyncIter_calls_once (f : β → Option (String → Option ε × Option ρ))
    (opts : FuncOptions ε ρ)
    (hopts : opts = ⟨true, none⟩ ∨ ∃ mr, opts = ⟨false, some mr⟩) :
    ∀ (l : List (Cand β)) (acc : AsyncAcc β ε ρ), l ≠ [] →
      acc.stoppedEarly = false →
      (∀ c ∈ (asyncIter f opts l acc).invoked, firesWithErrorOrResult f c) →
      ((asyncIter f opts l acc).calls).length = acc.calls.length + 1 := by
  intro l
  induction l with
  | nil => intro acc h; exact absurd rfl h
  | cons c l ih =>
      intro acc _ hstop hfires
      match hfc : f c.filesystem with
      | none =>
          by_cases hl0 : l = []
          · subst hl0
            rcases hopts with hopt | ⟨mr, hopt⟩ <;> subst hopt <;>
              simp [asyncIter, asyncStep, hfc, doneIteration, hstop]
          · have hne : l.isEmpty = false := by simpa [List.isEmpty_iff] using hl0
            have heq : asyncIter f opts (c :: l) acc
                = asyncIter f opts l
                    { acc with
                        collectedErrors := acc.collectedErrors ++ [some .noFunc],
                        collectedResults := acc.collectedResults ++ [none] } := by
              simp [asyncIter, asyncStep, hfc, hne]
            rw [heq] at hfires ⊢
            exact ih _ hl0 (by simpa using hstop) hfires
      | some g =>
          match hcomp : g c.subpath with
          | (some e, rr) =>
              by_cases hl0 : l = []
              · subst hl0
                rcases hopts with hopt | ⟨mr, hopt⟩ <;> subst hopt <;>
                  simp [asyncIter, asyncStep, hfc, hcomp, doneIteration, hstop]
              · have hne : l.isEmpty = false := by
                  simpa [List.isEmpty_iff] using hl0
                have heq : asyncIter f opts (c :: l) acc
                    = asyncIter f opts l
                        { acc with
                            errors := acc.errors ++ [some e],
                            results := acc.results ++ [rr],
                            invoked := acc.invoked ++ [c],
                            collectedErrors :=
                              acc.collectedErrors ++ [some (.base e)],
                            collectedResults := acc.collectedResults ++ [none] } := by
                  simp [asyncIter, asyncStep, hfc, hcomp, hne]
                rw [heq] at hfires ⊢
                exact ih _ hl0 (by simpa using hstop) hfires
          | (none, some v) =>
              rcases hopts with hopt | ⟨mr, hopt⟩ <;> subst hopt
              · simp [asyncIter, asyncStep, hfc, hcomp, doneIteration]
              · by_cases hl0 : l = []
                · subst hl0
                  simp [asyncIter, asyncStep, hfc, hcomp, doneIteration, hstop]
                · have hne : l.isEmpty = false := by
                    simpa [List.isEmpty_iff] using hl0
                  have heq : asyncIter f ⟨false, some mr⟩ (c :: l) acc
                      = asyncIter f ⟨false, some mr⟩ l
                          { acc with
                              errors := acc.errors ++ [none],
                              results := acc.results ++ [some v],
                              invoked := acc.invoked ++ [c],
                              collectedErrors := acc.collectedErrors ++ [none],
                              collectedResults :=
                                acc.collectedResults ++ [some v] } := by
                    simp [asyncIter, asyncStep, hfc, hcomp, hne]
                  rw [heq] at hfires ⊢
                  exact ih _ hl0 (by simpa using hstop) hfires
          | (none, none) =>
              exfalso
              have heq : asyncIter f opts (c :: l) acc
                  = { acc with
                        errors := acc.errors ++ [none],
                        results := acc.results ++ [none],
                        invoked := acc.invoked ++ [c] } := by
                simp [asyncIter, asyncStep, hfc, hcomp]
              rw [heq] at hfires
              have hc := hfires c (by simp)
              simp [firesWithErrorOrResult, asyncOutcome, hfc, hcomp] at hc

theorem exists_first_violation (P : α → Prop) (l : List α) :
    (∀ x ∈ l, P x)
    ∨ ∃ pre x rest, l = pre ++ x :: rest ∧ (∀ y ∈ pre, P y) ∧ ¬ P x := by
  induction l with
  | nil => exact Or.inl (by simp)
  | cons a l ih =>
      by_cases ha : P a
      · rcases ih with h | ⟨pre, x, rest, heq, hpre, hx⟩
        · refine Or.inl ?_
          intro y hy
          rcases List.mem_cons.mp hy with rfl | hy'
          · exact ha
          · exact h y hy'
        · refine Or.inr ⟨a :: pre, x, rest, by simp [heq], ?_, hx⟩
          intro y hy
          rcases List.mem_cons.mp hy with rfl | hy'
          · exact ha
          · exact hpre y hy'
      · exact Or.inr ⟨[], a, l, rfl, by simp, ha⟩

theorem mergeReaddir_shape (errors : List (Option ε))
    (results : List (Option (List String))) :
    (mergeReaddirResults errors results).2 = none
    ∨ (mergeReaddirResults errors results).1 = none := by
  unfold mergeReaddirResults
  split
  · simp
  · simp

theorem syncToCall_merged (m : Option ε × Option ρ)
    (h : m.2 = none ∨ m.1 = none) :
    syncToCall (syncMergedOutcome m) = (Option.map JSErr.base m.1, m.2) := by
  obtain ⟨m1, m2⟩ := m
  rcases h with h | h <;> simp only at h <;> subst h
  · cases m1 <;> simp [syncMergedOutcome, syncToCall]
  · cases m2 <;> simp [syncMergedOutcome, syncToCall]

theorem syncAsyncAgree_firstValue
    (fs : β → Option (String → Except ε (Option ρ)))
    (fa : β → Option (String → Option ε × Option ρ))
    (rootFS : β) (pj : String → String → String) (table : Table β)
    (filepath : String)
    (hagree : ∀ c ∈ gatherStuffToIterateOver rootFS pj table
        (ensureStartsWithSlash filepath), agreeOn fs fa c) :
    (callAsyncFunc fa firstValueOptions rootFS pj table filepath).calls
      = [syncToCall
          ((callSyncFunc fs firstValueOptions rootFS pj table filepath).1)]
    ∧ (callAsyncFunc fa firstValueOptions rootFS pj table filepath).invoked
      = (callSyncFunc fs firstValueOptions rootFS pj table filepath).2.invoked := by
  by_cases hL : gatherStuffToIterateOver rootFS pj table
      (ensureStartsWithSlash filepath) = []
  · constructor <;>
      simp [callSyncFunc, callAsyncFunc, hL, firstValueOptions, doneIteration,
        asyncInit, syncToCall]
  · rcases exists_first_violation (syncFails fs)
      (gatherStuffToIterateOver rootFS pj table
        (ensureStartsWithSlash filepath)) with hall | ⟨pre, x, rest, heq, hpre, hx⟩
    · -- every candidate fails in the blocking form; by agreement also async
      obtain ⟨c0, L', hL'⟩ := List.exists_cons_of_ne_nil hL
      have hfailA : ∀ c ∈ gatherStuffToIterateOver rootFS pj table
          (ensureStartsWithSlash filepath), asyncFails fa c := by
        intro c hc
        obtain ⟨op, g, hop, hg, hcase⟩ := hagree c hc
        rcases hcase with ⟨e, _, hge⟩ | ⟨v, hv, _⟩
        · exact ⟨g, e, hg, hge⟩
        · exfalso
          obtain ⟨op', e, hop', he'⟩ := hall c hc
          rw [hop'] at hop
          obtain rfl := Option.some_inj.mp hop
          rw [hv] at he'
          exact Except.noConfusion he'
      obtain ⟨op0, e0, hop0, he0⟩ := hall c0 (by rw [hL']; simp)
      have hg0 : ∃ g0, fa c0.filesystem = some g0
          ∧ g0 c0.subpath = (some e0, none) := by
        obtain ⟨op, g, hop, hg, hcase⟩ := hagree c0 (by rw [hL']; simp)
        rw [hop0] at hop
        obtain rfl := Option.some_inj.mp hop
        rcases hcase with ⟨e, he, hge⟩ | ⟨v, hv, _⟩
        · rw [he0] at he
          obtain rfl := Except.error.inj he
          exact ⟨g, hg, hge⟩
        · rw [he0] at hv
          exact absurd hv (by simp)
      obtain ⟨g0, hg0, hge0⟩ := hg0
      rw [hL'] at hall hfailA
      have hsync := syncIter_allFail fs true (c0 :: L') ⟨[], [], []⟩ hall
      have hasync := asyncIter_allFail fa (c0 :: L') asyncInit (by simp)
        hfailA rfl
      simp only [asyncInit, List.nil_append] at hasync
      have houtS : (syncOutcome fs c0).1 = some e0 := by
        simp [syncOutcome, hop0, he0]
      have houtA : (asyncOutcome fa c0).1 = some e0 := by
        simp [asyncOutcome, hg0, hge0]
      have hempty : (c0 :: L').isEmpty = false := by simp
      constructor <;>
        simp [callSyncFunc, callAsyncFunc, hL', hempty, firstValueOptions,
          hsync, hasync, asyncInit, houtS, houtA, syncToCall]
    · -- blocking candidate x is the first that does not throw: it succeeds
      have hxL : x ∈ gatherStuffToIterateOver rootFS pj table
          (ensureStartsWithSlash filepath) := by rw [heq]; simp
      obtain ⟨op, g, hop, hg, hcase⟩ := hagree x hxL
      rcases hcase with ⟨e, he, _⟩ | ⟨v, hv, hgv⟩
      · exact absurd ⟨op, e, hop, he⟩ hx
      have hpreS : ∀ y ∈ pre, syncNoDefined fs y := by
        intro y hy op' hop'
        obtain ⟨op'', e, hop'', he''⟩ := hpre y hy
        rw [hop''] at hop'
        obtain rfl := Option.some_inj.mp hop'
        exact Or.inl ⟨e, he''⟩
      have hpreA : ∀ y ∈ pre, asyncFallsThrough fa y := by
        intro y hy g' hg'
        have hyL : y ∈ gatherStuffToIterateOver rootFS pj table
            (ensureStartsWithSlash filepath) := by
          rw [heq]; exact List.mem_append_left _ hy
        obtain ⟨opy, gy, hopy, hgy, hcy⟩ := hagree y hyL
        rw [hgy] at hg'
        obtain rfl := Option.some_inj.mp hg'
        rcases hcy with ⟨e, _, hgey⟩ | ⟨w, hvy, _⟩
        · simp [hgey]
        · exfalso
          obtain ⟨opy', e, hopy', hey'⟩ := hpre y hy
          rw [hopy'] at hopy
          obtain rfl := Option.some_inj.mp hopy
          rw [hvy] at hey'
          exact Except.noConfusion hey'
      obtain ⟨E, R, hsync⟩ :=
        syncIter_success fs x v op hop hv pre rest ⟨[], [], []⟩ hpreS
      obtain ⟨E2, R2, CE, CR, hasync⟩ :=
        asyncIter_success fa x v g hg hgv pre rest asyncInit hpreA
      simp only [asyncInit, List.nil_append] at hasync
      have hfilterS : pre.filter (fun y => (fs y.filesystem).isSome) = pre := by
        apply List.filter_eq_self.mpr
        intro y hy
        obtain ⟨opy, _, hopy, _, _⟩ := hagree y
          (by rw [heq]; exact List.mem_append_left _ hy)
        simp [hopy]
      have hfilterA : pre.filter (fun y => (fa y.filesystem).isSome) = pre := by
        apply List.filter_eq_self.mpr
        intro y hy
        obtain ⟨_, gy, _, hgy, _⟩ := hagree y
          (by rw [heq]; exact List.mem_append_left _ hy)
        simp [hgy]
      have hempty : (pre ++ x :: rest).isEmpty = false := by simp
      constructor <;>
        simp [callSyncFunc, callAsyncFunc, heq, hempty, firstValueOptions,
          hsync, hasync, asyncInit, hfilterS, hfilterA, syncToCall]

theorem syncAsyncAgree_readdir
    (fs : β → Option (String → Except ε (Option (List String))))
    (fa : β → Option (String → Option ε × Option (List String)))
    (rootFS : β) (pj : String → String → String) (table : Table β)
    (filepath : String)
    (hne : gatherStuffToIterateOver rootFS pj table
        (ensureStartsWithSlash filepath) ≠ [])
    (hagree : ∀ c ∈ gatherStuffToIterateOver rootFS pj table
        (ensureStartsWithSlash filepath), agreeOn fs fa c) :
    (callAsyncFunc fa readdirOptions rootFS pj table filepath).calls
      = [syncToCall
          ((callSyncFunc fs readdirOptions rootFS pj table filepath).1)]
    ∧ (callAsyncFunc fa readdirOptions rootFS pj table filepath).invoked
      = (callSyncFunc fs readdirOptions rootFS pj table filepath).2.invoked := by
  have hSimpl : ∀ c ∈ gatherStuffToIterateOver rootFS pj table
      (ensureStartsWithSlash filepath), (fs c.filesystem).isSome = true := by
    intro c hc
    obtain ⟨op, _, hop, _, _⟩ := hagree c hc
    simp [hop]
  have hAimpl : ∀ c ∈ gatherStuffToIterateOver rootFS pj table
      (ensureStartsWithSlash filepath), asyncImplNoStall fa c := by
    intro c hc
    obtain ⟨op, g, hop, hg, hcase⟩ := hagree c hc
    refine ⟨g, hg, ?_⟩
    rcases hcase with ⟨e, _, hge⟩ | ⟨v, _, hgv⟩
    · left; simp [hge]
    · right; simp [hgv]
  have houts : ∀ c ∈ gatherStuffToIterateOver rootFS pj table
      (ensureStartsWithSlash filepath),
      syncOutcome fs c = asyncOutcome fa c := by
    intro c hc
    obtain ⟨op, g, hop, hg, hcase⟩ := hagree c hc
    rcases hcase with ⟨e, he, hge⟩ | ⟨v, hv, hgv⟩
    · simp [syncOutcome, asyncOutcome, hop, hg, he, hge]
    · simp [syncOutcome, asyncOutcome, hop, hg, hv, hgv]
  have hsync := syncIter_noFirstValue fs _ ⟨[], [], []⟩ hSimpl
  obtain ⟨CE, CR, hasync⟩ :=
    asyncIter_merge fa mergeReaddirResults _ asyncInit hne hAimpl
  simp only [asyncInit, List.nil_append] at hasync
  have hmapeq1 : (gatherStuffToIterateOver rootFS pj table
        (ensureStartsWithSlash filepath)).map (fun c => (asyncOutcome fa c).1)
      = (gatherStuffToIterateOver rootFS pj table
        (ensureStartsWithSlash filepath)).map (fun c => (syncOutcome fs c).1) := by
    apply List.map_congr_left
    intro c hc
    rw [houts c hc]
  have hmapeq2 : (gatherStuffToIterateOver rootFS pj table
        (ensureStartsWithSlash filepath)).map (fun c => (asyncOutcome fa c).2)
      = (gatherStuffToIterateOver rootFS pj table
        (ensureStartsWithSlash filepath)).map (fun c => (syncOutcome fs c).2) := by
    apply List.map_congr_left
    intro c hc
    rw [houts c hc]
  rw [hmapeq1, hmapeq2] at hasync
  have hempty : (gatherStuffToIterateOver rootFS pj table
      (ensureStartsWithSlash filepath)).isEmpty = false := by
    simpa [List.isEmpty_iff] using hne
  have hshape := mergeReaddir_shape
    ((gatherStuffToIterateOver rootFS pj table
      (ensureStartsWithSlash filepath)).map (fun c => (syncOutcome fs c).1))
    ((gatherStuffToIterateOver rootFS pj table
      (ensureStartsWithSlash filepath)).map (fun c => (syncOutcome fs c).2))
  have hcall := syncToCall_merged _ hshape
  constructor <;>
    simp [callSyncFunc, callAsyncFunc, hempty, readdirOptions, hsync, hasync,
      asyncInit, hcall]

theorem objGet_objSet_self (obj : List (String × α)) (k : String) (v : α) :
    objGet (objSet obj k v) k = some v := by
  induction obj with
  | nil => simp [objSet, objGet]
  | cons pr obj ih =>
      obtain ⟨k', w⟩ := pr
      by_cases h : k' = k
      · subst h
        simp [objSet, objGet]
      · simp [objSet, objGet, h, ih]

theorem objGet_objSet_ne (obj : List (String × α)) (k k' : String) (v : α)
    (h : k' ≠ k) :
    objGet (objSet obj k v) k' = objGet obj k' := by
  induction obj with
  | nil =>
      simp only [objSet, objGet]
      rw [if_neg (fun hh => h hh.symm)]
  | cons pr obj ih =>
      obtain ⟨q, w⟩ := pr
      by_cases hq : q = k
      · subst hq
        simp only [objSet, if_pos rfl, objGet]
        rw [if_neg (fun hh => h hh.symm), if_neg (fun hh => h hh.symm)]
      · simp only [objSet, if_neg hq, objGet, ih]

theorem mem_keys_objSet (obj : List (String × α)) (k x : String) (v : α) :
    x ∈ (objSet obj k v).map Prod.fst ↔ x ∈ obj.map Prod.fst ∨ x = k := by
  induction obj with
  | nil => simp [objSet]
  | cons pr obj ih =>
      obtain ⟨q, w⟩ := pr
      by_cases hq : q = k
      · subst hq
        simp [objSet]
        tauto
      · simp [objSet, hq, ih]
        tauto

theorem nodup_keys_objSet (obj : List (String × α)) (k : String) (v : α)
    (h : (obj.map Prod.fst).Nodup) :
    ((objSet obj k v).map Prod.fst).Nodup := by
  induction obj with
  | nil => simp [objSet]
  | cons pr obj ih =>
      obtain ⟨q, w⟩ := pr
      simp only [List.map_cons, List.nodup_cons] at h
      by_cases hq : q = k
      · subst hq
        simpa [objSet] using h
      · simp only [objSet, if_neg hq, List.map_cons, List.nodup_cons]
        refine ⟨?_, ih h.2⟩
        intro hmem
        rcases (mem_keys_objSet obj k q v).mp hmem with hin | hqk
        · exact h.1 hin
        · exact hq hqk

theorem mergeOld_step_eq (obj : Table β) (pr : String × List (Descriptor β)) :
    (match objGet obj pr.1 with
     | some existing => objSet obj pr.1 (existing ++ pr.2)
     | none => objSet obj pr.1 pr.2)
    = objSet obj pr.1 ((objGet obj pr.1).getD [] ++ pr.2) := by
  cases h : objGet obj pr.1 <;> simp [h]

theorem mergeOld_lookup_not_mem (p : String) :
    ∀ (old : Table β) (toAdd : Table β), p ∉ old.map Prod.fst →
      objGet (mergeOldMountPoints old toAdd) p = objGet toAdd p := by
  intro old
  induction old with
  | nil => intro toAdd _; rfl
  | cons pr old ih =>
      intro toAdd hp
      obtain ⟨q, es⟩ := pr
      simp only [List.map_cons, List.mem_cons, not_or] at hp
      have hrec := ih
        (match objGet toAdd q with
         | some existing => objSet toAdd q (existing ++ es)
         | none => objSet toAdd q es) hp.2
      simp only [mergeOldMountPoints, List.foldl_cons] at hrec ⊢
      rw [hrec]
      rw [show (match objGet toAdd q with
           | some existing => objSet toAdd q (existing ++ es)
           | none => objSet toAdd q es)
          = objSet toAdd q ((objGet toAdd q).getD [] ++ es) from
          mergeOld_step_eq toAdd (q, es)]
      exact objGet_objSet_ne toAdd q p _ hp.1

theorem mergeOld_lookup_mem (p : String) (ds : List (Descriptor β)) :
    ∀ (old : Table β) (toAdd : Table β), (old.map Prod.fst).Nodup →
      objGet old p = some ds →
      objGet (mergeOldMountPoints old toAdd) p
        = some ((objGet toAdd p).getD [] ++ ds) := by
  intro old
  induction old with
  | nil => intro toAdd _ h; simp [objGet] at h
  | cons pr old ih =>
      intro toAdd hnodup hget
      obtain ⟨q, es⟩ := pr
      simp only [List.map_cons, List.nodup_cons] at hnodup
      simp only [objGet] at hget
      by_cases hq : q = p
      · subst hq
        rw [if_pos rfl] at hget
        obtain rfl := Option.some_inj.mp hget
        simp only [mergeOldMountPoints, List.foldl_cons]
        have hrw := mergeOld_step_eq toAdd (q, es)
        simp only at hrw
        rw [hrw]
        have := mergeOld_lookup_not_mem q old
          (objSet toAdd q ((objGet toAdd q).getD [] ++ es)) hnodup.1
        simp only [mergeOldMountPoints] at this
        rw [this]
        exact objGet_objSet_self toAdd q _
      · rw [if_neg hq] at hget
        simp only [mergeOldMountPoints, List.foldl_cons]
        have hrw := mergeOld_step_eq toAdd (q, es)
        simp only at hrw
        rw [hrw]
        have hrec := ih (objSet toAdd q ((objGet toAdd q).getD [] ++ es))
          hnodup.2 hget
        simp only [mergeOldMountPoints] at hrec
        rw [hrec]
        rw [objGet_objSet_ne toAdd q p _ (fun hh => hq hh.symm)]

theorem mem_keys_mergeOld (x : String) :
    ∀ (old : Table β) (toAdd : Table β),
      x ∈ (mergeOldMountPoints old toAdd).map Prod.fst
        ↔ x ∈ toAdd.map Prod.fst ∨ x ∈ old.map Prod.fst := by
  intro old
  induction old with
  | nil => intro toAdd; simp [mergeOldMountPoints]
  | cons pr old ih =>
      intro toAdd
      obtain ⟨q, es⟩ := pr
      simp only [mergeOldMountPoints, List.foldl_cons] at ih ⊢
      rw [show (match objGet toAdd q with
           | some existing => objSet toAdd q (existing ++ es)
           | none => objSet toAdd q es)
          = objSet toAdd q ((objGet toAdd q).getD [] ++ es) from
          mergeOld_step_eq toAdd (q, es)]
      rw [ih]
      rw [mem_keys_objSet]
      simp only [List.map_cons, List.mem_cons]
      tauto

theorem mem_keys_cleanup (x : String) :
    ∀ (input : RawMapping β) (obj : Table β),
      x ∈ (input.foldl
            (fun obj pr => objSet obj (ensureStartsWithSlash pr.1)
              ((ensureArray pr.2).map cleanDescriptor)) obj).map Prod.fst
        ↔ x ∈ obj.map Prod.fst
          ∨ ∃ pr ∈ input, ensureStartsWithSlash pr.1 = x := by
  intro input
  induction input with
  | nil => intro obj; simp
  | cons pr input ih =>
      intro obj
      simp only [List.foldl_cons]
      rw [ih]
      rw [mem_keys_objSet]
      simp only [List.mem_cons]
      constructor
      · rintro (⟨h | h⟩ | ⟨a, ha, hax⟩)
        · exact Or.inl h
        · exact Or.inr ⟨pr, Or.inl rfl, h.symm⟩
        · exact Or.inr ⟨a, Or.inr ha, hax⟩
      · rintro (h | ⟨a, ha | ha, hax⟩)
        · exact Or.inl (Or.inl h)
        · subst ha; exact Or.inl (Or.inr hax.symm)
        · exact Or.inr ⟨a, ha, hax⟩

theorem objGet_map_graph (f : String → α) :
    ∀ (ks : List String) (p : String), p ∈ ks →
      objGet (ks.map (fun k => (k, f k))) p = some (f p) := by
  intro ks
  induction ks with
  | nil => intro p hp; simp at hp
  | cons k ks ih =>
      intro p hp
      simp only [List.map_cons, objGet]
      by_cases hk : k = p
      · subst hk; simp
      · rw [if_neg hk]
        exact ih p (by rcases List.mem_cons.mp hp with h | h
                       · exact absurd h.symm hk
                       · exact h)

theorem mem_keys_of_objGet (p : String) (v : α) :
    ∀ (obj : List (String × α)), objGet obj p = some v →
      p ∈ obj.map Prod.fst := by
  intro obj
  induction obj with
  | nil => intro h; simp [objGet] at h
  | cons pr obj ih =>
      intro h
      obtain ⟨q, w⟩ := pr
      simp only [objGet] at h
      by_cases hq : q = p
      · subst hq; simp
      · rw [if_neg hq] at h
        simp [ih h]

theorem mem_sortDesc (l : List String) (x : String) :
    x ∈ sortDesc l ↔ x ∈ l := by
  unfold sortDesc
  rw [List.mem_reverse]
  exact (List.perm_insertionSort jsStrLe l).mem_iff

theorem sorted_sortDesc (l : List String) :
    List.Sorted (fun a b => jsStrLe b a) (sortDesc l) := by
  unfold sortDesc
  exact List.pairwise_reverse.mpr (List.sorted_insertionSort jsStrLe l)

theorem deref_append (st ext : Store β) (r : Ref) (h : r < st.length) :
    deref (st ++ ext) r = deref st r :=
  List.getD_append st ext [] r h

theorem deref_append_self (st : Store β) (v : List (Descriptor β))
    (ext : Store β) :
    deref (st ++ v :: ext) st.length = v := by
  unfold deref
  rw [List.getD_append_right st (v :: ext) [] st.length le_rfl]
  simp

theorem derefTable_extend (st ext : Store β) (t : RefTable)
    (h : ∀ r ∈ t.map Prod.snd, r < st.length) :
    derefTable (st ++ ext) t = derefTable st t := by
  unfold derefTable
  apply List.map_congr_left
  intro pr hpr
  have := h pr.2 (List.mem_map.mpr ⟨pr, hpr, rfl⟩)
  rw [deref_append st ext pr.2 this]

theorem cloneRegistry_go (t : RefTable) :
    ∀ (st : Store β) (acc : RefTable),
      ∃ ext tNew,
        t.foldl
          (fun acc pr =>
            let fresh := alloc acc.1 (deref acc.1 pr.2)
            (fresh.1, acc.2 ++ [(pr.1, fresh.2)])) (st, acc)
          = (st ++ ext, acc ++ tNew)
        ∧ List.Forall₂ (fun pr pr' => pr'.1 = pr.1
            ∧ (pr.2 < st.length → deref (st ++ ext) pr'.2 = deref st pr.2)
            ∧ st.length ≤ pr'.2
            ∧ pr'.2 < (st ++ ext).length) t tNew := by
  induction t with
  | nil =>
      intro st acc
      exact ⟨[], [], by simp, List.Forall₂.nil⟩
  | cons pr t ih =>
      intro st acc
      obtain ⟨k, r⟩ := pr
      obtain ⟨ext', tNew', hfold, hrel⟩ :=
        ih (st ++ [deref st r]) (acc ++ [(k, st.length)])
      have hstores : (st ++ [deref st r]) ++ ext' = st ++ deref st r :: ext' := by
        simp
      refine ⟨deref st r :: ext', (k, st.length) :: tNew', ?_, ?_⟩
      · rw [List.foldl_cons]
        show List.foldl _ (st ++ [deref st r], acc ++ [(k, st.length)]) t
          = (st ++ deref st r :: ext', acc ++ (k, st.length) :: tNew')
        rw [hfold]
        simp
      · constructor
        · exact ⟨rfl, fun _ => deref_append_self st (deref st r) ext',
            le_rfl, by simp⟩
        · refine List.Forall₂.imp ?_ hrel
          rintro a b ⟨h1, h2, h3, h4⟩
          rw [hstores] at h2 h4
          refine ⟨h1, ?_, ?_, h4⟩
          · intro ha
            have ha' : a.2 < (st ++ [deref st r]).length := by
              simpa using Nat.lt_succ_of_lt ha
            rw [h2 ha']
            exact deref_append st [deref st r] a.2 ha
          · calc st.length ≤ (st ++ [deref st r]).length := by simp
              _ ≤ b.2 := h3

theorem cloneRegistry_spec (st : Store β) (t : RefTable)
    (hvalid : ∀ r ∈ t.map Prod.snd, r < st.length) :
    ∃ ext,
      (cloneRegistry st t).1 = st ++ ext
      ∧ derefTable (cloneRegistry st t).1 (cloneRegistry st t).2
          = derefTable st t
      ∧ (∀ r ∈ (cloneRegistry st t).2.map Prod.snd, st.length ≤ r)
      ∧ (∀ r ∈ (cloneRegistry st t).2.map Prod.snd,
          r < (cloneRegistry st t).1.length) := by
  obtain ⟨ext, tNew, hfold, hrel⟩ := cloneRegistry_go t st []
  have hclone : cloneRegistry st t = (st ++ ext, tNew) := by
    unfold cloneRegistry
    rw [hfold]
    simp
  have hge : ∀ b ∈ tNew, st.length ≤ b.2 ∧ b.2 < (st ++ ext).length := by
    clear hclone hfold hvalid
    induction hrel with
    | nil => intro b hb; simp at hb
    | cons hab _ ihrest =>
        intro b hb
        rcases List.mem_cons.mp hb with rfl | hb'
        · exact ⟨hab.2.2.1, hab.2.2.2⟩
        · exact ihrest b hb'
  refine ⟨ext, by rw [hclone], ?_, ?_, ?_⟩
  · rw [hclone]
    unfold derefTable
    clear hclone hfold hge
    revert hvalid
    induction hrel with
    | nil => intro _; simp
    | cons hab _hrest ihrest =>
        intro hvalid
        rename_i a b l1 l2
        simp only [List.map_cons, List.mem_cons] at hvalid
        simp only [List.map_cons, List.cons.injEq]
        obtain ⟨h1, h2, _⟩ := hab
        refine ⟨?_, ihrest (fun rr hrr => hvalid rr (Or.inr hrr))⟩
        have hva := hvalid a.2 (Or.inl rfl)
        rw [h1, h2 hva]
  · rw [hclone]
    intro r hr
    obtain ⟨pr', hpr', rfl⟩ := List.mem_map.mp hr
    exact (hge pr' hpr').1
  · rw [hclone]
    intro r hr
    obtain ⟨pr', hpr', rfl⟩ := List.mem_map.mp hr
    simpa using (hge pr' hpr').2

theorem cleanupRef_extends (inp : RawMapping β) :
    ∀ (init : Store β × RefTable),
      ∃ ext, (inp.foldl cleanupStepRef init).1 = init.1 ++ ext := by
  induction inp with
  | nil => intro init; exact ⟨[], by simp⟩
  | cons pr inp ih =>
      intro init
      obtain ⟨ext', hext⟩ := ih (cleanupStepRef init pr)
      refine ⟨(ensureArray pr.2).map cleanDescriptor :: ext', ?_⟩
      rw [List.foldl_cons, hext]
      show (init.1 ++ [(ensureArray pr.2).map cleanDescriptor]) ++ ext' = _
      simp

theorem mergeRef_extends (t : RefTable) :
    ∀ (init : Store β × RefTable),
      ∃ ext, (t.foldl mergeStepRef init).1 = init.1 ++ ext := by
  induction t with
  | nil => intro init; exact ⟨[], by simp⟩
  | cons pr t ih =>
      intro init
      obtain ⟨ext', hext⟩ := ih (mergeStepRef init pr)
      rw [List.foldl_cons]
      cases hq : objGet init.2 pr.1 with
      | some rNew =>
          refine ⟨(deref init.1 rNew ++ deref init.1 pr.2) :: ext', ?_⟩
          rw [hext]
          have hstep : mergeStepRef init pr
              = (init.1 ++ [deref init.1 rNew ++ deref init.1 pr.2],
                 objSet init.2 pr.1 init.1.length) := by
            simp [mergeStepRef, hq, alloc]
          rw [hstep]
          simp
      | none =>
          refine ⟨ext', ?_⟩
          rw [hext]
          have hstep : mergeStepRef init pr
              = (init.1, objSet init.2 pr.1 pr.2) := by
            simp [mergeStepRef, hq]
          rw [hstep]

theorem addMountPointsRef_extends (st : Store β) (t : RefTable)
    (inp : RawMapping β) :
    ∃ ext, (addMountPointsRef st t inp).1 = st ++ ext := by
  obtain ⟨e1, h1⟩ := cleanupRef_extends inp (st, ([] : RefTable))
  obtain ⟨e2, h2⟩ := mergeRef_extends t (inp.foldl cleanupStepRef (st, []))
  refine ⟨e1 ++ e2, ?_⟩
  show (t.foldl mergeStepRef (inp.foldl cleanupStepRef (st, []))).1 = _
  rw [h2, h1, List.append_assoc]

/-! ## Claim theorems -/

/-- C1: for every first-success operation (stat, readFile, readlink:
options `firstValueOptions`), in both blocking and non-blocking form, the
first candidate in priority order whose invocation returns a defined result
determines the outcome: that result is returned (blocking) or delivered to
the caller's completion (non-blocking), and no candidate after it is ever
invoked — the invoked trace stops exactly at that candidate. -/
theorem first_success_short_circuits
    (fs : β → Option (String → Except ε (Option ρ)))
    (fa : β → Option (String → Option ε × Option ρ))
    (rootFS : β) (pj : String → String → String) (table : Table β)
    (filepath : String) (pre rest : List (Cand β)) (c : Cand β) (v : ρ)
    (hcands : gatherStuffToIterateOver rootFS pj table
        (ensureStartsWithSlash filepath) = pre ++ c :: rest)
    (hpreS : ∀ c' ∈ pre, syncNoDefined fs c')
    (hcS : ∃ op, fs c.filesystem = some op ∧ op c.subpath = .ok (some v))
    (hpreA : ∀ c' ∈ pre, asyncFallsThrough fa c')
    (hcA : ∃ g, fa c.filesystem = some g ∧ g c.subpath = (none, some v)) :
    (callSyncFunc fs firstValueOptions rootFS pj table filepath).1 = .ok (some v)
    ∧ (callSyncFunc fs firstValueOptions rootFS pj table filepath).2.invoked
        = pre.filter (fun x => (fs x.filesystem).isSome) ++ [c]
    ∧ (callAsyncFunc fa firstValueOptions rootFS pj table filepath).calls
        = [(none, some v)]
    ∧ (callAsyncFunc fa firstValueOptions rootFS pj table filepath).invoked
        = pre.filter (fun x => (fa x.filesystem).isSome) ++ [c] := by
  obtain ⟨op, hop, hv⟩ := hcS
  obtain ⟨g, hg, hgv⟩ := hcA
  obtain ⟨E, R, hsync⟩ :=
    syncIter_success fs c v op hop hv pre rest ⟨[], [], []⟩ hpreS
  obtain ⟨E2, R2, CE, CR, hasync⟩ :=
    asyncIter_success fa c v g hg hgv pre rest asyncInit hpreA
  simp only [asyncInit, List.nil_append] at hasync
  have hempty : (pre ++ c :: rest).isEmpty = false := by simp
  refine ⟨?_, ?_, ?_, ?_⟩ <;>
    simp [callSyncFunc, callAsyncFunc, hcands, hempty, firstValueOptions,
      hsync, hasync, asyncInit]

/-- C1 witness: with a single root mount whose backend defines the
operation and returns 7, both forms return 7 and only that candidate is
invoked. -/
theorem first_success_short_circuits_witness :
    gatherStuffToIterateOver 9 pjConcat rootTable (ensureStartsWithSlash "/x")
      = [] ++ (⟨"/", 0, "/x", none⟩ : Cand Nat) :: []
    ∧ (∀ c' ∈ ([] : List (Cand Nat)), syncNoDefined syncOkBackend c')
    ∧ (callSyncFunc syncOkBackend firstValueOptions 9 pjConcat rootTable "/x").1
        = .ok (some 7)
    ∧ (callAsyncFunc asyncOkBackend firstValueOptions 9 pjConcat rootTable "/x").calls
        = [(none, some 7)] := by
  have h := first_success_short_circuits
    syncOkBackend asyncOkBackend 9 pjConcat rootTable "/x"
    [] [] ⟨"/", 0, "/x", none⟩ 7
    (by decide)
    (by intro c' hc'; simp at hc')
    ⟨_, rfl, rfl⟩
    (by intro c' hc'; simp at hc')
    ⟨_, rfl, rfl⟩
  exact ⟨by decide, by intro c' hc'; simp at hc', h.1, h.2.2.1⟩

/-- C2: for every readdir call, blocking and non-blocking, with a non-empty
candidate list of contract-conforming implementing backends, every
candidate is invoked regardless of individual failures; if at least one
candidate returns a defined listing the call returns/delivers the
flattening of all defined listings with duplicates removed in sorted
order, and if zero candidates produce a defined result the call fails with
the first recorded underlying failure. -/
theorem readdir_merges_all_candidates
    (fs : β → Option (String → Except ε (Option (List String))))
    (fa : β → Option (String → Option ε × Option (List String)))
    (rootFS : β) (pj : String → String → String) (table : Table β)
    (filepath : String) (l : List (Cand β))
    (hcands : gatherStuffToIterateOver rootFS pj table
        (ensureStartsWithSlash filepath) = l)
    (hne : l ≠ [])
    (hS : ∀ c ∈ l, syncImplConforms fs c)
    (hA : ∀ c ∈ l, asyncImplConforms fa c)
    (hnoemptyS : ∀ c ∈ l, ∀ lst, (syncOutcome fs c).2 = some lst → "" ∉ lst)
    (hnoemptyA : ∀ c ∈ l, ∀ lst, (asyncOutcome fa c).2 = some lst → "" ∉ lst) :
    (callSyncFunc fs readdirOptions rootFS pj table filepath).2.invoked = l
    ∧ (callAsyncFunc fa readdirOptions rootFS pj table filepath).invoked = l
    ∧ ((l.map (fun c => (syncOutcome fs c).2)).filterMap id ≠ [] →
        (callSyncFunc fs readdirOptions rootFS pj table filepath).1
          = .ok (some (jsSort (uniqFirst (flattenDefined
              (l.map (fun c => (syncOutcome fs c).2)))))))
    ∧ ((l.map (fun c => (asyncOutcome fa c).2)).filterMap id ≠ [] →
        (callAsyncFunc fa readdirOptions rootFS pj table filepath).calls
          = [(none, some (jsSort (uniqFirst (flattenDefined
              (l.map (fun c => (asyncOutcome fa c).2))))))])
    ∧ ((l.map (fun c => (syncOutcome fs c).2)).filterMap id = [] →
        ∃ e, (l.map (fun c => (syncOutcome fs c).1)).headD none = some e
          ∧ (callSyncFunc fs readdirOptions rootFS pj table filepath).1
              = .error (.err e))
    ∧ ((l.map (fun c => (asyncOutcome fa c).2)).filterMap id = [] →
        ∃ e, (l.map (fun c => (asyncOutcome fa c).1)).headD none = some e
          ∧ (callAsyncFunc fa readdirOptions rootFS pj table filepath).calls
              = [(some (.base e), none)]) := by
  have hSimpl : ∀ c ∈ l, (fs c.filesystem).isSome = true := by
    intro c hc
    obtain ⟨op, hop, _⟩ := hS c hc
    simp [hop]
  have hAimpl : ∀ c ∈ l, asyncImplNoStall fa c := by
    intro c hc
    obtain ⟨g, hg, hcase⟩ := hA c hc
    refine ⟨g, hg, ?_⟩
    rcases hcase with ⟨e, he⟩ | ⟨r, hr⟩
    · left; simp [he]
    · right; simp [hr]
  have hsync := syncIter_noFirstValue fs l ⟨[], [], []⟩ hSimpl
  obtain ⟨CE, CR, hasync⟩ :=
    asyncIter_merge fa mergeReaddirResults l asyncInit hne hAimpl
  simp only [asyncInit, List.nil_append] at hasync
  have hempty : l.isEmpty = false := by simpa [List.isEmpty_iff] using hne
  have hmapne : (l.map (fun c => (syncOutcome fs c).1)) ≠ [] := by
    simpa using hne
  have hmapneA : (l.map (fun c => (asyncOutcome fa c).1)) ≠ [] := by
    simpa using hne
  refine ⟨?_, ?_, ?_, ?_, ?_, ?_⟩
  · simp [callSyncFunc, hcands, hempty, readdirOptions, hsync]
  · simp [callAsyncFunc, hcands, hempty, readdirOptions, hasync, asyncInit]
  · intro hdef
    have hmr := mergeReaddir_defined
      (l.map (fun c => (syncOutcome fs c).1))
      (l.map (fun c => (syncOutcome fs c).2)) hdef
    have hfc := flattenCompact_eq_flattenDefined
      (l.map (fun c => (syncOutcome fs c).2))
      (by intro r hr lst hrl
          obtain ⟨c, hc, hcr⟩ := List.mem_map.mp hr
          exact hnoemptyS c hc lst (hcr.symm ▸ hrl))
    simp [callSyncFunc, hcands, hempty, readdirOptions, hsync, hmr, hfc,
      syncMergedOutcome]
  · intro hdef
    have hmr := mergeReaddir_defined
      (l.map (fun c => (asyncOutcome fa c).1))
      (l.map (fun c => (asyncOutcome fa c).2)) hdef
    have hfc := flattenCompact_eq_flattenDefined
      (l.map (fun c => (asyncOutcome fa c).2))
      (by intro r hr lst hrl
          obtain ⟨c, hc, hcr⟩ := List.mem_map.mp hr
          exact hnoemptyA c hc lst (hcr.symm ▸ hrl))
    simp [callAsyncFunc, hcands, hempty, readdirOptions, hasync, asyncInit,
      hmr, hfc]
  · intro hzero
    match hl : l with
    | c0 :: l' =>
        obtain ⟨op0, hop0, hcase0⟩ := hS c0 (by simp)
        have he0 : ∃ e, (syncOutcome fs c0).1 = some e := by
          rcases hcase0 with ⟨e, he⟩ | ⟨r, hr⟩
          · exact ⟨e, by simp [syncOutcome, hop0, he]⟩
          · exfalso
            have hr2 : (syncOutcome fs c0).2 = some r := by
              simp [syncOutcome, hop0, hr]
            have : r ∈ ((c0 :: l').map
                (fun c => (syncOutcome fs c).2)).filterMap id := by
              simp [hr2]
            rw [hzero] at this
            simp at this
        obtain ⟨e0, he0⟩ := he0
        refine ⟨e0, by simp [he0], ?_⟩
        have hmr := mergeReaddir_allErrors
          ((c0 :: l').map (fun c => (syncOutcome fs c).1))
          ((c0 :: l').map (fun c => (syncOutcome fs c).2))
          (by simp) hzero
        simp only [List.map_cons, he0, List.headD_cons] at hmr
        simp [callSyncFunc, hcands, hempty, readdirOptions, hsync, hmr,
          syncMergedOutcome, he0]
  · intro hzero
    match hl : l with
    | c0 :: l' =>
        obtain ⟨g0, hg0, hcase0⟩ := hA c0 (by simp)
        have he0 : ∃ e, (asyncOutcome fa c0).1 = some e := by
          rcases hcase0 with ⟨e, he⟩ | ⟨r, hr⟩
          · exact ⟨e, by simp [asyncOutcome, hg0, he]⟩
          · exfalso
            have hr2 : (asyncOutcome fa c0).2 = some r := by
              simp [asyncOutcome, hg0, hr]
            have : r ∈ ((c0 :: l').map
                (fun c => (asyncOutcome fa c).2)).filterMap id := by
              simp [hr2]
            rw [hzero] at this
            simp at this
        obtain ⟨e0, he0⟩ := he0
        refine ⟨e0, by simp [he0], ?_⟩
        have hmr := mergeReaddir_allErrors
          ((c0 :: l').map (fun c => (asyncOutcome fa c).1))
          ((c0 :: l').map (fun c => (asyncOutcome fa c).2))
          (by simp) hzero
        simp only [List.map_cons, he0, List.headD_cons] at hmr
        simp [callAsyncFunc, hcands, hempty, readdirOptions, hasync, asyncInit,
          hmr, he0]

/-- C2 witness: the spec scenario — two backends at /custom listing
[FOOBAR, Y] and [Allo, FOOBAR]; both forms of readdir return
[Allo, FOOBAR, Y], deduplicated and sorted, and both candidates are
invoked. -/
theorem readdir_merges_all_candidates_witness :
    gatherStuffToIterateOver 9 pjConcat customTable
        (ensureStartsWithSlash "/custom/anything")
      = [⟨"/custom", 0, "/anything", none⟩, ⟨"/custom", 1, "/anything", none⟩]
    ∧ (callSyncFunc readdirSyncBackends readdirOptions 9 pjConcat
        customTable "/custom/anything").1 = .ok (some ["Allo", "FOOBAR", "Y"])
    ∧ (callAsyncFunc readdirAsyncBackends readdirOptions 9 pjConcat
        customTable "/custom/anything").calls
        = [(none, some ["Allo", "FOOBAR", "Y"])]
    ∧ (callSyncFunc readdirSyncBackends readdirOptions 9 pjConcat
        customTable "/custom/anything").2.invoked
        = [⟨"/custom", 0, "/anything", none⟩, ⟨"/custom", 1, "/anything", none⟩]
    ∧ (callAsyncFunc readdirAsyncBackends readdirOptions 9 pjConcat
        customTable "/custom/anything").invoked
        = [⟨"/custom", 0, "/anything", none⟩, ⟨"/custom", 1, "/anything", none⟩] := by
  have h := readdir_merges_all_candidates
    readdirSyncBackends readdirAsyncBackends 9 pjConcat customTable
    "/custom/anything"
    [⟨"/custom", 0, "/anything", none⟩, ⟨"/custom", 1, "/anything", none⟩]
    (by decide) (by decide)
    (by intro c hc
        simp only [List.mem_cons, List.not_mem_nil, or_false] at hc
        rcases hc with h | h <;> subst h
        · exact ⟨_, rfl, Or.inr ⟨_, rfl⟩⟩
        · exact ⟨_, rfl, Or.inr ⟨_, rfl⟩⟩)
    (by intro c hc
        simp only [List.mem_cons, List.not_mem_nil, or_false] at hc
        rcases hc with h | h <;> subst h
        · exact ⟨_, rfl, Or.inr ⟨_, rfl⟩⟩
        · exact ⟨_, rfl, Or.inr ⟨_, rfl⟩⟩)
    (by intro c hc lst hl
        simp only [List.mem_cons, List.not_mem_nil, or_false] at hc
        rcases hc with h | h <;> subst h
        · have hl2 : some ["FOOBAR", "Y"] = some lst := hl
          obtain rfl := Option.some_inj.mp hl2
          decide
        · have hl2 : some ["Allo", "FOOBAR"] = some lst := hl
          obtain rfl := Option.some_inj.mp hl2
          decide)
    (by intro c hc lst hl
        simp only [List.mem_cons, List.not_mem_nil, or_false] at hc
        rcases hc with h | h <;> subst h
        · have hl2 : some ["FOOBAR", "Y"] = some lst := hl
          obtain rfl := Option.some_inj.mp hl2
          decide
        · have hl2 : some ["Allo", "FOOBAR"] = some lst := hl
          obtain rfl := Option.some_inj.mp hl2
          decide)
  obtain ⟨hi1, hi2, hd1, hd2, _, _⟩ := h
  refine ⟨by decide, ?_, ?_, hi1, hi2⟩
  · rw [hd1 (by decide)]
    exact congrArg (fun x => (Except.ok (some x) :
      Except (Thrown Nat) (Option (List String)))) (by decide)
  · rw [hd2 (by decide)]
    exact congrArg (fun x => ([(none, some x)] :
      List (Option (JSErr Nat) × Option (List String)))) (by decide)

/-- C8: `clone` returns a registry whose mount table dereferences to the
same value as the original's (backend values shared, descriptor arrays
copied into fresh references disjoint from the original's), and merging
new mount points into either the clone or the original leaves the other's
table value — and hence its candidate resolution for every path —
unchanged. -/
theorem clone_independent (st : Store β) (t : RefTable) (inp : RawMapping β)
    (rootFS : β) (pj : String → String → String) (filepath : String)
    (hvalid : ∀ r ∈ t.map Prod.snd, r < st.length) :
    derefTable (cloneRegistry st t).1 (cloneRegistry st t).2 = derefTable st t
    ∧ (∀ r ∈ (cloneRegistry st t).2.map Prod.snd, st.length ≤ r)
    ∧ derefTable
        (addMountPointsRef (cloneRegistry st t).1 (cloneRegistry st t).2 inp).1
        t
        = derefTable st t
    ∧ gatherStuffToIterateOver rootFS pj
        (derefTable (addMountPointsRef (cloneRegistry st t).1
          (cloneRegistry st t).2 inp).1 t) filepath
        = gatherStuffToIterateOver rootFS pj (derefTable st t) filepath
    ∧ derefTable (addMountPointsRef (cloneRegistry st t).1 t inp).1
        (cloneRegistry st t).2
        = derefTable (cloneRegistry st t).1 (cloneRegistry st t).2 := by
  obtain ⟨ext, hst1, hderef, hfresh, hvalidc⟩ := cloneRegistry_spec st t hvalid
  have h3 : derefTable
      (addMountPointsRef (cloneRegistry st t).1 (cloneRegistry st t).2 inp).1 t
      = derefTable st t := by
    obtain ⟨ext2, hext2⟩ := addMountPointsRef_extends (cloneRegistry st t).1
      (cloneRegistry st t).2 inp
    rw [hext2, hst1, List.append_assoc]
    exact derefTable_extend st (ext ++ ext2) t hvalid
  refine ⟨hderef, hfresh, h3, by rw [h3], ?_⟩
  obtain ⟨ext3, hext3⟩ := addMountPointsRef_extends (cloneRegistry st t).1 t inp
  rw [hext3]
  exact derefTable_extend (cloneRegistry st t).1 ext3 (cloneRegistry st t).2
    hvalidc

/-- C8 witness: a root mount in a one-cell store; cloning and merging a
new mount point into the clone leaves the original's table value and
resolution intact, and symmetrically for the clone. -/
theorem clone_independent_witness :
    (∀ r ∈ (refTableW.map Prod.snd), r < storeW.length)
    ∧ derefTable (cloneRegistry storeW refTableW).1
        (cloneRegistry storeW refTableW).2 = derefTable storeW refTableW
    ∧ derefTable
        (addMountPointsRef (cloneRegistry storeW refTableW).1
          (cloneRegistry storeW refTableW).2 cloneInputW).1 refTableW
        = derefTable storeW refTableW
    ∧ gatherStuffToIterateOver 9 pjConcat
        (derefTable (addMountPointsRef (cloneRegistry storeW refTableW).1
          (cloneRegistry storeW refTableW).2 cloneInputW).1 refTableW) "/x"
        = gatherStuffToIterateOver 9 pjConcat
            (derefTable storeW refTableW) "/x" := by
  have h := clone_independent storeW refTableW cloneInputW 9 pjConcat "/x"
    (by decide)
  exact ⟨by decide, h.1, h.2.2.1, h.2.2.2.1⟩

/-- C9: for every non-blocking call of one of the four operations (options
either first-success with no merge, or no-first-success with a merge
policy), if each invoked backend's completion fires exactly once with an
error or a defined result, then the caller's completion is invoked exactly
once. (Completions firing exactly once is built into the model; the
hypothesis excludes completions carrying neither an error nor a defined
result, which stall the chain in the source.) -/
theorem async_caller_completion_exactly_once
    (f : β → Option (String → Option ε × Option ρ)) (opts : FuncOptions ε ρ)
    (rootFS : β) (pj : String → String → String) (table : Table β)
    (filepath : String)
    (hopts : opts = ⟨true, none⟩ ∨ ∃ mr, opts = ⟨false, some mr⟩)
    (hfires : ∀ c ∈ (callAsyncFunc f opts rootFS pj table filepath).invoked,
        firesWithErrorOrResult f c) :
    ((callAsyncFunc f opts rootFS pj table filepath).calls).length = 1 := by
  by_cases hempty : (gatherStuffToIterateOver rootFS pj table
      (ensureStartsWithSlash filepath)).isEmpty = true
  · rcases hopts with hopt | ⟨mr, hopt⟩ <;> subst hopt <;>
      simp [callAsyncFunc, hempty, doneIteration, asyncInit]
  · have hne : gatherStuffToIterateOver rootFS pj table
        (ensureStartsWithSlash filepath) ≠ [] := by
      simpa [List.isEmpty_iff] using hempty
    have heq : callAsyncFunc f opts rootFS pj table filepath
        = asyncIter f opts (gatherStuffToIterateOver rootFS pj table
            (ensureStartsWithSlash filepath)) asyncInit := by
      simp only [callAsyncFunc]
      rw [if_neg]
      simpa [List.isEmpty_iff] using hne
    rw [heq] at hfires ⊢
    have h := asyncIter_calls_once f opts hopts _ asyncInit hne rfl hfires
    simpa [asyncInit] using h

/-- C9 witness: a root mount whose backend completes with a defined result;
the caller's completion fires exactly once. -/
theorem async_caller_completion_exactly_once_witness :
    ((⟨true, none⟩ : FuncOptions Nat Nat) = ⟨true, none⟩
      ∨ ∃ mr, (⟨true, none⟩ : FuncOptions Nat Nat) = ⟨false, some mr⟩)
    ∧ (∀ c ∈ (callAsyncFunc asyncOkBackend ⟨true, none⟩ 9 pjConcat
          rootTable "/x").invoked, firesWithErrorOrResult asyncOkBackend c)
    ∧ ((callAsyncFunc asyncOkBackend ⟨true, none⟩ 9 pjConcat
          rootTable "/x").calls).length = 1 := by
  refine ⟨Or.inl rfl, ?_, ?_⟩
  · intro c hc
    have hc' : c ∈ [(⟨"/", 0, "/x", none⟩ : Cand Nat)] := hc
    simp only [List.mem_singleton] at hc'
    subst hc'
    right
    rfl
  · exact async_caller_completion_exactly_once asyncOkBackend ⟨true, none⟩
      9 pjConcat rootTable "/x" (Or.inl rfl)
      (by intro c hc
          have hc' : c ∈ [(⟨"/", 0, "/x", none⟩ : Cand Nat)] := hc
          simp only [List.mem_singleton] at hc'
          subst hc'
          right
          rfl)

/-- C4 counterexample: with one candidate whose backend lacks the
operation, the blocking form throws the JS value `undefined` while the
non-blocking form delivers the no-such-function error to the completion —
the two forms do not surface the same failure, so they do not behave
identically for every registry and input path. -/
theorem sync_async_divergence_counterexample :
    (callSyncFunc noImplSync firstValueOptions 9 pjConcat rootTable "/x").1
      = .error .jsUndefined
    ∧ (callAsyncFunc noImplAsync firstValueOptions 9 pjConcat rootTable "/x").calls
      = [(some .noFunc, none)]
    ∧ (callAsyncFunc noImplAsync firstValueOptions 9 pjConcat rootTable "/x").calls
      ≠ [syncToCall
          ((callSyncFunc noImplSync firstValueOptions 9 pjConcat rootTable "/x").1)] := by
  refine ⟨rfl, rfl, ?_⟩
  decide

/-- C4 amended: the blocking and non-blocking forms behave identically —
same invoked candidates in the same order, same short-circuit point, same
delivered value, same surfaced failure (via the `syncToCall`
correspondence) — for every registry and input path, provided every
resolved candidate's backend implements the operation and its blocking and
non-blocking behaviors agree, each invocation either throwing/reporting an
error or yielding a defined result; for readdir additionally at least one
candidate must resolve (with no candidates, non-blocking readdir delivers
an empty listing while the blocking form throws the no-mount-match
error). -/
theorem sync_async_equivalence :
    (∀ (β ε ρ : Type) (fs : β → Option (String → Except ε (Option ρ)))
        (fa : β → Option (String → Option ε × Option ρ))
        (rootFS : β) (pj : String → String → String) (table : Table β)
        (filepath : String),
      (∀ c ∈ gatherStuffToIterateOver rootFS pj table
          (ensureStartsWithSlash filepath), agreeOn fs fa c) →
      (callAsyncFunc fa firstValueOptions rootFS pj table filepath).calls
          = [syncToCall
              ((callSyncFunc fs firstValueOptions rootFS pj table filepath).1)]
        ∧ (callAsyncFunc fa firstValueOptions rootFS pj table filepath).invoked
          = (callSyncFunc fs firstValueOptions rootFS pj table filepath).2.invoked)
    ∧ (∀ (β ε : Type) (fs : β → Option (String → Except ε (Option (List String))))
        (fa : β → Option (String → Option ε × Option (List String)))
        (rootFS : β) (pj : String → String → String) (table : Table β)
        (filepath : String),
      gatherStuffToIterateOver rootFS pj table (ensureStartsWithSlash filepath)
          ≠ [] →
      (∀ c ∈ gatherStuffToIterateOver rootFS pj table
          (ensureStartsWithSlash filepath), agreeOn fs fa c) →
      (callAsyncFunc fa readdirOptions rootFS pj table filepath).calls
          = [syncToCall
              ((callSyncFunc fs readdirOptions rootFS pj table filepath).1)]
        ∧ (callAsyncFunc fa readdirOptions rootFS pj table filepath).invoked
          = (callSyncFunc fs readdirOptions rootFS pj table filepath).2.invoked) :=
  ⟨fun _ _ _ fs fa rootFS pj table filepath hagree =>
      syncAsyncAgree_firstValue fs fa rootFS pj table filepath hagree,
   fun _ _ fs fa rootFS pj table filepath hne hagree =>
      syncAsyncAgree_readdir fs fa rootFS pj table filepath hne hagree⟩

/-- C4 amended witness: with agreeing one-backend tables both the
first-success equivalence and the readdir equivalence hold at a concrete
registry and path. -/
theorem sync_async_equivalence_witness :
    (∀ c ∈ gatherStuffToIterateOver 9 pjConcat rootTable
        (ensureStartsWithSlash "/x"), agreeOn syncOkBackend asyncOkBackend c)
    ∧ (callAsyncFunc asyncOkBackend firstValueOptions 9 pjConcat
        rootTable "/x").calls
      = [syncToCall
          ((callSyncFunc syncOkBackend firstValueOptions 9 pjConcat
            rootTable "/x").1)]
    ∧ (callAsyncFunc readdirAsyncBackends readdirOptions 9 pjConcat
        customTable "/custom/d").calls
      = [syncToCall
          ((callSyncFunc readdirSyncBackends readdirOptions 9 pjConcat
            customTable "/custom/d").1)] := by
  have hagree1 : ∀ c ∈ gatherStuffToIterateOver 9 pjConcat rootTable
      (ensureStartsWithSlash "/x"), agreeOn syncOkBackend asyncOkBackend c := by
    intro c hc
    have hc' : c ∈ [(⟨"/", 0, "/x", none⟩ : Cand Nat)] := hc
    simp only [List.mem_singleton] at hc'
    subst hc'
    exact ⟨_, _, rfl, rfl, Or.inr ⟨7, rfl, rfl⟩⟩
  have hagree2 : ∀ c ∈ gatherStuffToIterateOver 9 pjConcat customTable
      (ensureStartsWithSlash "/custom/d"),
      agreeOn readdirSyncBackends readdirAsyncBackends c := by
    intro c hc
    have hc' : c ∈ [(⟨"/custom", 0, "/d", none⟩ : Cand Nat),
        ⟨"/custom", 1, "/d", none⟩] := hc
    simp only [List.mem_cons, List.not_mem_nil, or_false] at hc'
    rcases hc' with h | h <;> subst h
    · exact ⟨_, _, rfl, rfl, Or.inr ⟨["FOOBAR", "Y"], rfl, rfl⟩⟩
    · exact ⟨_, _, rfl, rfl, Or.inr ⟨["Allo", "FOOBAR"], rfl, rfl⟩⟩
  exact ⟨hagree1,
    (sync_async_equivalence.1 Nat Nat Nat syncOkBackend asyncOkBackend
      9 pjConcat rootTable "/x" hagree1).1,
    (sync_async_equivalence.2 Nat Nat readdirSyncBackends readdirAsyncBackends
      9 pjConcat customTable "/custom/d" (by decide) hagree2).1⟩

/-- C3 counterexample: with one candidate whose backend does not implement
the operation, the blocking call fails by throwing the JS value `undefined`
while its `errors` accumulator is empty — so no underlying failure was
recorded and the surfaced value is not a recorded failure, contradicting
the claim for the no-candidate-implements case. -/
theorem all_fail_claim_counterexample :
    (callSyncFunc noImplSync firstValueOptions 9 pjConcat rootTable "/x").1
      = .error .jsUndefined
    ∧ (callSyncFunc noImplSync firstValueOptions 9 pjConcat rootTable "/x").2.errors
      = [] := by
  constructor <;> rfl

/-- C3 amended: for every single-value operation where every candidate
implements the operation and every invocation fails, the call fails and the
failure surfaced is the first recorded underlying failure in candidate
order: the blocking form raises it and the non-blocking form passes it to
the completion. (When no candidate implements the operation the blocking
form instead throws the JS value `undefined`, recording no failure.) -/
theorem all_fail_first_recorded_error
    (fs : β → Option (String → Except ε (Option ρ)))
    (fa : β → Option (String → Option ε × Option ρ))
    (rootFS : β) (pj : String → String → String) (table : Table β)
    (filepath : String) (c0 : Cand β) (l : List (Cand β))
    (hcands : gatherStuffToIterateOver rootFS pj table
        (ensureStartsWithSlash filepath) = c0 :: l)
    (hfailS : ∀ c ∈ c0 :: l, syncFails fs c)
    (hfailA : ∀ c ∈ c0 :: l, asyncFails fa c) :
    (∃ e, (syncOutcome fs c0).1 = some e
       ∧ (callSyncFunc fs firstValueOptions rootFS pj table filepath).1
           = .error (.err e)
       ∧ (callSyncFunc fs firstValueOptions rootFS pj table filepath).2.errors
           = (c0 :: l).map (fun c => (syncOutcome fs c).1))
    ∧ (∃ e, (asyncOutcome fa c0).1 = some e
       ∧ (callAsyncFunc fa firstValueOptions rootFS pj table filepath).calls
           = [(some (.base e), none)]
       ∧ (callAsyncFunc fa firstValueOptions rootFS pj table filepath).errors
           = (c0 :: l).map (fun c => (asyncOutcome fa c).1)) := by
  have hsync := syncIter_allFail fs true (c0 :: l) ⟨[], [], []⟩ hfailS
  have hasync := asyncIter_allFail fa (c0 :: l) asyncInit (by simp) hfailA rfl
  obtain ⟨op0, e0, hop0, he0⟩ := hfailS c0 (by simp)
  have houtS : (syncOutcome fs c0).1 = some e0 := by simp [syncOutcome, hop0, he0]
  obtain ⟨g0, e0a, hg0, hge0⟩ := hfailA c0 (by simp)
  have houtA : (asyncOutcome fa c0).1 = some e0a := by
    simp [asyncOutcome, hg0, hge0]
  simp only [asyncInit, List.nil_append] at hasync
  have hempty : (c0 :: l).isEmpty = false := by simp
  constructor
  · refine ⟨e0, houtS, ?_, ?_⟩ <;>
      simp [callSyncFunc, hcands, hempty, firstValueOptions, hsync, houtS]
  · refine ⟨e0a, houtA, ?_, ?_⟩ <;>
      simp [callAsyncFunc, hcands, hempty, firstValueOptions, hasync,
        asyncInit, houtA]

/-- C3 amended witness: two mounts match /a/x, both backends throw; both
forms surface the first recorded error, 105 from backend 5. -/
theorem all_fail_first_recorded_error_witness :
    gatherStuffToIterateOver 9 pjConcat twoMountTable (ensureStartsWithSlash "/a/x")
      = (⟨"/a", 5, "/x", none⟩ : Cand Nat) :: [⟨"/", 7, "/a/x", none⟩]
    ∧ (callSyncFunc syncFailBackend firstValueOptions 9 pjConcat
        twoMountTable "/a/x").1 = .error (.err 105)
    ∧ (callAsyncFunc asyncFailBackend firstValueOptions 9 pjConcat
        twoMountTable "/a/x").calls = [(some (.base 105), none)] := by
  have h := all_fail_first_recorded_error
    syncFailBackend asyncFailBackend 9 pjConcat twoMountTable "/a/x"
    ⟨"/a", 5, "/x", none⟩ [⟨"/", 7, "/a/x", none⟩]
    (by decide)
    (by intro c hc; exact ⟨_, 100 + c.filesystem, rfl, rfl⟩)
    (by intro c hc; exact ⟨_, 100 + c.filesystem, rfl, rfl⟩)
  obtain ⟨⟨e1, he1, hs1, _⟩, ⟨e2, he2, ha1, _⟩⟩ := h
  have he1' : e1 = 105 := by
    have : (syncOutcome syncFailBackend ⟨"/a", 5, "/x", none⟩).1 = some 105 := rfl
    rw [this] at he1; exact (Option.some_inj.mp he1).symm
  have he2' : e2 = 105 := by
    have : (asyncOutcome asyncFailBackend ⟨"/a", 5, "/x", none⟩).1 = some 105 := rfl
    rw [this] at he2; exact (Option.some_inj.mp he2).symm
  subst he1' he2'
  exact ⟨by decide, hs1, ha1⟩

/-- C7: after initialization (the `old = []` instance) and after every
merge, the mount table keys are in descending lexicographic order and the
key set is the union of the normalized new mount paths and the old ones;
a merge for an already-present mount path concatenates the new cleaned
descriptor list before the existing descriptors, never removing or
replacing any previously registered descriptor. -/
theorem addMountPoints_sorted_and_preserves (old : Table β)
    (input : RawMapping β) (hnodup : (old.map Prod.fst).Nodup) :
    List.Sorted (fun a b => jsStrLe b a)
      ((addMountPoints old input).map Prod.fst)
    ∧ (∀ x, x ∈ (addMountPoints old input).map Prod.fst ↔
        (∃ pr ∈ input, ensureStartsWithSlash pr.1 = x)
          ∨ x ∈ old.map Prod.fst)
    ∧ (∀ p ds, objGet old p = some ds →
        objGet (addMountPoints old input) p
          = some ((objGet (cleanupMountPoints input) p).getD [] ++ ds)) := by
  have hkeys : (addMountPoints old input).map Prod.fst
      = sortDesc ((mergeOldMountPoints old
          (cleanupMountPoints input)).map Prod.fst) := by
    simp only [addMountPoints, List.map_map]
    exact List.map_id _ ▸ rfl
  have hcu : ∀ x, x ∈ (cleanupMountPoints input).map Prod.fst
      ↔ ∃ pr ∈ input, ensureStartsWithSlash pr.1 = x := by
    intro x
    simpa using mem_keys_cleanup (β := β) x input []
  refine ⟨?_, ?_, ?_⟩
  · rw [hkeys]
    exact sorted_sortDesc _
  · intro x
    rw [hkeys, mem_sortDesc, mem_keys_mergeOld, hcu]
  · intro p ds hget
    have hm := mergeOld_lookup_mem p ds old (cleanupMountPoints input)
      hnodup hget
    have hpk : p ∈ (mergeOldMountPoints old
        (cleanupMountPoints input)).map Prod.fst := by
      rw [mem_keys_mergeOld]
      exact Or.inr (mem_keys_of_objGet p ds old hget)
    unfold addMountPoints
    rw [objGet_map_graph
      (fun k => (objGet (mergeOldMountPoints old (cleanupMountPoints input)) k).getD [])
      _ p ((mem_sortDesc _ p).mpr hpk)]
    rw [hm]
    simp

/-- C7 witness: merging a new backend for /b into a table already holding
one prepends the new descriptor before the old one, and the rebuilt table
keys are sorted descending. -/
theorem addMountPoints_sorted_and_preserves_witness :
    (((twoBWitnessOld : Table Nat).map Prod.fst).Nodup)
    ∧ objGet twoBWitnessOld "/b" = some [.backend 1]
    ∧ objGet (addMountPoints twoBWitnessOld twoBWitnessInput) "/b"
        = some [.backend 2, .backend 1]
    ∧ List.Sorted (fun a b => jsStrLe b a)
        ((addMountPoints twoBWitnessOld twoBWitnessInput).map Prod.fst) := by
  have h := addMountPoints_sorted_and_preserves
    twoBWitnessOld twoBWitnessInput (by decide)
  have h3 := h.2.2 "/b" [.backend 1] (by decide)
  refine ⟨by decide, by decide, ?_, h.1⟩
  rw [h3]
  decide

/-- C5 counterexample: with an empty registry, the non-blocking readdir
does not deliver the no-mount-match error to the completion — it delivers
a successful empty listing, because `doneIteration` ignores its error
argument whenever a merge policy is configured. -/
theorem async_readdir_no_mount_counterexample :
    (callAsyncFunc noImplReaddirAsync readdirOptions 9 pjConcat [] "/x").calls
      = [(none, some [])]
    ∧ (callAsyncFunc noImplReaddirAsync readdirOptions 9 pjConcat [] "/x").calls
      ≠ [(some .noMount, none)] := by
  constructor
  · decide
  · intro h
    simp [callAsyncFunc, doneIteration, readdirOptions, asyncInit,
      mergeReaddirResults, gatherStuffToIterateOver] at h

/-- C5 amended: for every operation and path whose resolved candidate list
is empty, no backend is invoked, and the call fails with the no-mount-match
error in the blocking form of all four operations and in the non-blocking
form of the single-value operations; the non-blocking readdir instead
delivers a successful empty listing to the completion. -/
theorem no_mount_match_behavior
    (fs : β → Option (String → Except ε (Option ρ)))
    (fa : β → Option (String → Option ε × Option ρ))
    (frd : β → Option (String → Except ε (Option (List String))))
    (frda : β → Option (String → Option ε × Option (List String)))
    (rootFS : β) (pj : String → String → String) (table : Table β)
    (filepath : String)
    (hcands : gatherStuffToIterateOver rootFS pj table
        (ensureStartsWithSlash filepath) = []) :
    (callSyncFunc fs firstValueOptions rootFS pj table filepath).1
        = .error .noMountMatch
    ∧ (callSyncFunc fs firstValueOptions rootFS pj table filepath).2.invoked = []
    ∧ (callAsyncFunc fa firstValueOptions rootFS pj table filepath).calls
        = [(some .noMount, none)]
    ∧ (callAsyncFunc fa firstValueOptions rootFS pj table filepath).invoked = []
    ∧ (callSyncFunc frd readdirOptions rootFS pj table filepath).1
        = .error .noMountMatch
    ∧ (callSyncFunc frd readdirOptions rootFS pj table filepath).2.invoked = []
    ∧ (callAsyncFunc frda readdirOptions rootFS pj table filepath).calls
        = [(none, some [])]
    ∧ (callAsyncFunc frda readdirOptions rootFS pj table filepath).invoked
        = [] := by
  refine ⟨?_, ?_, ?_, ?_, ?_, ?_, ?_, ?_⟩ <;>
    simp [callSyncFunc, callAsyncFunc, hcands, firstValueOptions,
      readdirOptions, doneIteration, asyncInit, mergeReaddirResults,
      jsSort, uniqFirst, flattenCompact]

/-- C5 amended witness: the empty registry matches no path. -/
theorem no_mount_match_behavior_witness :
    gatherStuffToIterateOver 9 pjConcat ([] : Table Nat)
        (ensureStartsWithSlash "/x") = []
    ∧ (callSyncFunc noImplSync firstValueOptions 9 pjConcat [] "/x").1
        = .error .noMountMatch
    ∧ (callAsyncFunc noImplAsync firstValueOptions 9 pjConcat [] "/x").calls
        = [(some .noMount, none)] := by
  have h := no_mount_match_behavior
    noImplSync noImplAsync noImplReaddirSync noImplReaddirAsync
    9 pjConcat [] "/x" (by decide)
  exact ⟨by decide, h.1, h.2.2.1⟩

/-- C6: for every normalized request path, the resolved candidate list
contains exactly one candidate per (mount path, descriptor) pair whose
mount path prefixes the request path, in table order and descriptor list
order, with the subpath and alias rewriting rules of spec section 4.3:
the push-loop of `_gatherStuffToIterateOver` computes exactly the
spec-described comprehension `gatherSpec`. -/
theorem gather_matches_spec_resolver (rootFS : β)
    (pj : String → String → String) (table : Table β) (filepath : String) :
    gatherStuffToIterateOver rootFS pj table filepath
      = gatherSpec rootFS pj table filepath := by
  have h := gather_foldl_eq rootFS pj filepath table []
  simpa [gatherStuffToIterateOver] using h

/-- C10: for every mount path other than `/` that is a plain character
prefix of the request path, the resolver matches it with no
path-segment-boundary check, and the produced subpath is the request path
with that prefix sliced off. -/
theorem prefix_match_no_boundary (rootFS : β)
    (pj : String → String → String) (b : β) (m p : String)
    (hm : m ≠ "/") (hpre : jsStartsWith p m = true) :
    gatherStuffToIterateOver rootFS pj [(m, [.backend b])] p
      = [⟨m, b, p.drop m.length, none⟩] := by
  simp [gatherStuffToIterateOver, hpre, subpathFor, hm, candOfDescriptor]

/-- C10 witness: a mount at `/a` matches the request path `/abc` and
produces the subpath `bc`. -/
theorem prefix_match_no_boundary_witness :
    ("/a" : String) ≠ "/" ∧ jsStartsWith "/abc" "/a" = true ∧
      gatherStuffToIterateOver (0 : Nat) (fun a b => a ++ b)
        [("/a", [.backend 1])] "/abc" = [⟨"/a", 1, "bc", none⟩] := by
  refine ⟨by decide, by decide, ?_⟩
  have h := prefix_match_no_boundary (0 : Nat)
    (fun a b => a ++ b) 1 "/a" "/abc" (by decide) (by decide)
  simpa using h

end MergedFS
